import Mathlib

/-!
# Verification of the ghact job-runner core

A shallow embedding, in Lean 4, of the core of the `ghact` webhook-driven
job runner (the `JobsDataBase` job store, the `GitRepository` local-clone
manager, and the `GHActWorker` execution loop), together with theorems
settling the specification claims about it.

Conventions of the embedding:
* The jobs directory on disk is a list of directory entries (`DirEnt`),
  each carrying the (possibly missing or corrupt) contents of its
  `status.json`.  Filesystem reads and writes become pure list operations.
* Subprocesses (`git pull`, `git clone`, `git rev-parse`, `git diff`) and
  the user callback are oracles supplied by an environment record; their
  observable outcome (success/failure, captured output) is what the code
  inspects, and is all the embedding keeps.
* JavaScript exceptions are values observed through their string
  conversion `"" + error` and their optional `.stack`; `try`/`catch`
  becomes branching on an `Option`/sum outcome.
* JavaScript's `Array.prototype.sort` (stable, by `localeCompare` on the
  ASCII job ids) is modelled by `List.mergeSort` on Lean's `String` order.
* `number.toString(10)` is modelled by an explicitly fuelled decimal
  renderer `decRepr` (kept kernel-computable on purpose).
-/

/-! ## Decimal rendering: the model of JavaScript `n.toString(10)` -/

/-- Decimal digits of `n`, least significant first, driven by explicit fuel
so that the definition is structural (hence kernel-computable).  `fuel = n`
is always enough since `n / 10 < n` for `n > 0`. -/
def decDigitsAux : Nat → Nat → List Nat
  | _, 0 => []
  | 0, _ + 1 => []
  | fuel + 1, n + 1 => ((n + 1) % 10) :: decDigitsAux fuel ((n + 1) / 10)

/-- The decimal representation of a natural number, as produced by
JavaScript's `Number.prototype.toString(10)` on a non-negative integer. -/
def decRepr (n : Nat) : String :=
  if n = 0 then "0"
  else ⟨((decDigitsAux n n).map Nat.digitChar).reverse⟩

/-- `"…".padStart(3, "0")` applied to `decRepr`: the source's
`(n).toString(10).padStart(3, "0")`. -/
def pad3 (n : Nat) : String :=
  let s := decRepr n
  if s.length < 3 then ⟨List.replicate (3 - s.length) '0' ++ s.data⟩ else s

/-- Value of a little-endian digit list. -/
def ofDecDigits : List Nat → Nat
  | [] => 0
  | d :: ds => d + 10 * ofDecDigits ds

/-- Inverse of `Nat.digitChar` on actual digits. -/
def charToDigit (c : Char) : Nat := c.toNat - '0'.toNat

/-- Parse a decimal string back to a number (little-endian evaluation of
the digit characters).  Only used to prove injectivity of `decRepr`. -/
def parseDec (s : String) : Nat := ofDecDigits ((s.data.map charToDigit).reverse)

/-! ## Data model: jobs and persisted job statuses

Shallow embedding of the `Job` family of types from `mod.ts` (a `BasicJob`
carries `from`/`till` refs, a `FullUpdateJob` carries a `files` payload, a
`FullUpdateGatherJob` carries the tag `type: "full_update_gather"`; the
union is represented as one structure with optional fields) and of the
`JobStatus` record persisted as `status.json` by `JobsDataBase`. -/

/-- `{ name, email }` — commit attribution carried by every job. -/
structure Author where
  name : String
  email : String
deriving DecidableEq, Repr

/-- The optional `files` payload of a job: `{ modified?, removed? }`. -/
structure FilesPayload where
  modified : Option (List String)
  removed : Option (List String)
deriving DecidableEq, Repr

/-- One job, as submitted to the store.  `fromRef`/`tillRef` model the
`from`/`till` fields (`from` is a reserved word in Lean); `jobType` models
the optional `type` tag, which is `some "full_update_gather"` exactly for
gather meta-jobs. -/
structure Job where
  id : String
  author : Author
  fromRef : Option String := none
  tillRef : Option String := none
  files : Option FilesPayload := none
  jobType : Option String := none
deriving DecidableEq, Repr

/-- The worker's check `"type" in job && job.type === "full_update_gather"`. -/
def Job.isGather (j : Job) : Bool := j.jobType == some "full_update_gather"

/-- The three persisted status values: `"pending" | "completed" | "failed"`. -/
inductive JStatus where
  | pending
  | completed
  | failed
deriving DecidableEq, Repr

/-- The `JobStatus` record serialized into each job directory's
`status.json`. -/
structure JobStatus where
  job : Job
  status : JStatus
  message : Option String
  dir : String
deriving DecidableEq, Repr

/-- `path.join(a, b)` for the simple two-segment joins the store performs. -/
def pathJoin (a b : String) : String := a ++ "/" ++ b

/-! ## The job store (`JobsDataBase`)

The jobs root directory is modelled as the list of its directory entries.
Each entry records its name, whether it is a directory (`Deno.readDirSync`
also reports plain files, which `allJobs` filters out), and the state of
the `status.json` inside it, which is what `allJobs`'s read-and-parse
stage observes:
* `missing`  — reading throws `Deno.errors.NotFound` (warned, skipped);
* `notDirectory` — reading throws `NotADirectory`/`ENOTDIR` (warned,
  skipped);
* `corrupt raw` — the file reads as `raw` but `JSON.parse` throws
  (warned, skipped);
* `valid s` — the file parses to the record `s`.
Other I/O errors, which the source re-throws, are outside the filesystem
model. -/
inductive EntryContent where
  | missing
  | notDirectory
  | corrupt (raw : String)
  | valid (s : JobStatus)
deriving DecidableEq, Repr

/-- One entry of the jobs root directory. -/
structure DirEnt where
  name : String
  isDirectory : Bool
  content : EntryContent
deriving DecidableEq, Repr

/-- The jobs root directory. -/
abbrev Store := List DirEnt

/-- The read-and-parse stage of `allJobs`, with the two skip-and-warn
error branches (missing status file, unparsable status file) collapsed to
`none`. -/
def readEntry (e : DirEnt) : Option JobStatus :=
  match e.content with
  | .valid s => some s
  | _ => none

/-- The comparator passed to `Array.prototype.sort`:
`oldestFirst ? a.name.localeCompare(b.name) : b.name.localeCompare(a.name)`,
modelled on Lean's lexicographic `String` order (the ids are ASCII
date-stamps, for which `localeCompare` agrees with code-unit order).
JavaScript's sort is stable, as is `List.mergeSort`. -/
def entryLe (oldestFirst : Bool) (a b : DirEnt) : Bool :=
  if oldestFirst then a.name ≤ b.name else b.name ≤ a.name

/-- `JobsDataBase.allJobs(oldestFirst = false, pagination?)`: list the
entries of the jobs root, keep directories, sort by name, optionally
`slice`, then read and parse each `status.json`, skipping (with a warning)
entries whose status file is missing or unparsable. -/
def allJobs (st : Store) (oldestFirst : Bool := false)
    (pagination : Option (Nat × Nat) := none) : List JobStatus :=
  let sorted := (st.filter (·.isDirectory)).mergeSort (entryLe oldestFirst)
  let sliced := match pagination with
    | none => sorted
    | some (a, b) => (sorted.drop a).take (b - a)
  sliced.filterMap readEntry

/-- `JobsDataBase.pendingJobs()`: `allJobs(true)` filtered to the records
with `status === "pending"`. -/
def pendingJobs (st : Store) : List JobStatus :=
  (allJobs st true).filter (fun js => js.status == .pending)

/-- The `JobStatus` record that `addJob`/`setStatus` build for `job`. -/
def mkStatus (jobsDir : String) (job : Job) (status : JStatus)
    (message : Option String) : JobStatus :=
  { job := job, status := status, message := message
    dir := pathJoin jobsDir job.id }

/-- The error thrown by `Deno.mkdirSync(status.dir)` when the directory
already exists (observed through its string conversion). -/
def conflictError (dir : String) : String :=
  "AlreadyExists: mkdir " ++ dir

/-- `JobsDataBase.addJob(job)`: `mkdirSync` the job directory (throwing a
conflict error if a same-named entry already exists), then write the
initial `status.json` with status `pending` and no message
(`JSON.stringify` drops the `undefined` message field). -/
def addJob (jobsDir : String) (st : Store) (job : Job) : Except String Store :=
  if st.any (fun e => e.name == job.id) then
    .error (conflictError (pathJoin jobsDir job.id))
  else
    .ok (st ++ [{ name := job.id, isDirectory := true
                  content := .valid (mkStatus jobsDir job .pending none) }])

/-- `JobsDataBase.setStatus(job, status, message?)`: overwrite
`status.json` in the directory named `job.id` with a freshly built record.
(The model updates the entry in place; writing into a directory that was
deleted meanwhile would throw in the source and is outside the filesystem
model.) -/
def setStatus (jobsDir : String) (st : Store) (job : Job) (status : JStatus)
    (message : Option String := none) : Store :=
  st.map (fun e =>
    if e.name == job.id then
      { e with content := .valid (mkStatus jobsDir job status message) }
    else e)

/-- The invariant the store maintains on disk: directory entry names are
unique (filesystem guarantee), every job entry is a directory, and each
valid `status.json` names the job whose directory it lives in
(`addJob`/`setStatus` write records keyed by `job.id` into the directory
named `job.id`). -/
def entryConsistent (e : DirEnt) : Bool :=
  match e.content with
  | .valid s => s.job.id == e.name
  | _ => true

def WellFormed (st : Store) : Prop :=
  (st.map (·.name)).Nodup ∧
  ∀ e ∈ st, e.isDirectory = true ∧ entryConsistent e = true

instance : DecidablePred WellFormed := fun st => by
  unfold WellFormed
  infer_instance

/-! ## The local repository manager (`GitRepository`): synchronization

`updateLocalData` / `cloneRepo` / `emptyDataDir` shell out to `git`; the
embedding keeps the on-disk state the code branches on (does the
directory exist, does `directory/.git` exist, is there a working
single-branch clone and of which branch) and an oracle for the outcomes
of `git pull` and `git clone`.  Each call also returns the trace of
filesystem/git operations it performed, in order. -/

/-- The on-disk state of the clone directory. -/
structure RepoFS where
  dirExists : Bool
  gitDirExists : Bool
  clonedBranch : Option String
deriving DecidableEq, Repr

/-- The operations `updateLocalData` can perform, in trace order. -/
inductive GitCmd where
  | pull
  | emptyDataDir
  | clone (branch : String)
deriving DecidableEq, Repr

/-- Identity of the repository plus the oracle for subprocess outcomes. -/
structure SyncEnv where
  uri : String
  branch : String
  pullSucceeds : Bool
  cloneSucceeds : Bool
deriving DecidableEq, Repr

/-- The message of the error thrown when `git clone` fails:
`Cloning of ${this.uri} into ${this.directory} failed, see logs.` -/
def cloneFailMsg (uri directory : String) : String :=
  "Cloning of " ++ uri ++ " into " ++ directory ++ " failed, see logs."

/-- `GitRepository.emptyDataDir()`: `removeSync` + `mkdirSync` — the
directory exists again, empty (no `.git`, no clone). -/
def emptyDataDir (_ : RepoFS) : RepoFS :=
  { dirExists := true, gitDirExists := false, clonedBranch := none }

/-- `GitRepository.cloneRepo(log)`: run
`git clone --single-branch --branch=${branch} ${authUri} .`; on success
the directory holds a working single-branch clone of `branch`; on failure
throw `Error(cloneFailMsg …)`.  (The preceding
`if (existsSync(dir)) mkdirSync(dir, {recursive: true})` is a no-op on
the modelled state.) -/
def cloneRepo (env : SyncEnv) (directory : String) (_ : RepoFS) :
    Except String RepoFS × List GitCmd :=
  if env.cloneSucceeds then
    (.ok { dirExists := true, gitDirExists := true, clonedBranch := some env.branch },
      [.clone env.branch])
  else
    (.error (cloneFailMsg env.uri directory), [.clone env.branch])

/-- `GitRepository.updateLocalData(log)`: if the directory and its `.git`
exist, try `git pull` and return on success; otherwise — or when the pull
command reports failure — `emptyDataDir()` and `cloneRepo(log)`. -/
def updateLocalData (env : SyncEnv) (directory : String) (fs : RepoFS) :
    Except String RepoFS × List GitCmd :=
  if fs.dirExists && fs.gitDirExists then
    if env.pullSucceeds then (.ok fs, [.pull])
    else
      let (r, cmds) := cloneRepo env directory (emptyDataDir fs)
      (r, .pull :: .emptyDataDir :: cmds)
  else
    let (r, cmds) := cloneRepo env directory (emptyDataDir fs)
    (r, .emptyDataDir :: cmds)

/-! ## The local repository manager: `getFullHash` and `getModifiedAfter`

`getModifiedAfter` synchronizes, resolves both refs with
`git rev-parse`, runs `git diff --name-status --no-renames` over either
`hash^!` (same resolved hash: the single commit's own changes) or
`fromHash^@ tillHash` (`^@` denotes the commit's parents), and parses the
name-status lines.  The environment supplies the observable behaviour of
the subprocesses: the outcome of the initial `updateLocalData`, the
stdout of `git rev-parse` per ref (`none` = non-zero exit), and the
output lines of `git diff` per argument list (`none` = non-zero exit). -/

/-- The result record: added/modified/removed path lists plus the two
resolved hashes (`from` is a reserved word in Lean, hence `fromHash`). -/
structure ChangeSummary where
  added : List String
  modified : List String
  removed : List String
  fromHash : String
  till : String
deriving DecidableEq, Repr

/-- Oracle for the subprocesses `getModifiedAfter` runs. -/
structure DiffEnv where
  sync : Option String
  revParse : String → Option String
  runDiff : List String → Option (List String)

/-- The prefix of `l` before the first occurrence of `c`. -/
def takeUntil (c : Char) : List Char → List Char
  | [] => []
  | x :: xs => if x = c then [] else x :: takeUntil c xs

/-- `s.split(sep)[0]`: the prefix of `s` before the first separator (the
whole string when the separator does not occur). -/
def splitHead (sep : Char) (s : String) : String := ⟨takeUntil sep s.data⟩

/-- First line of a command's stdout: `result.split("\n")[0]`. -/
def firstLine (s : String) : String := splitHead '\n' s

/-- `GitRepository.getFullHash(ref, log)`: `git rev-parse ${ref}`; on
success the first stdout line, otherwise
`Error("Could not rev-parse ${ref}, aborting")`. -/
def getFullHash (env : DiffEnv) (ref : String) : Except String String :=
  match env.revParse ref with
  | some out => .ok (firstLine out)
  | none => .error ("Could not rev-parse " ++ ref ++ ", aborting")

/-- The argument list built for `git diff`: `--name-status --no-renames`,
then `fromHash^!` when both refs resolved to the same hash, else
`fromHash^@ tillHash`. -/
def diffArgs (fromHash tillHash : String) : List String :=
  ["diff", "--name-status", "--no-renames"] ++
    (if fromHash == tillHash then [fromHash ++ "^!"]
     else [fromHash ++ "^@", tillHash])

/-- `s.split(/(\s+)/).filter((p) => p.trim().length > 0)`: the maximal
whitespace-free runs of the line.  (JavaScript `\s` on the ASCII output
of `git diff --name-status` coincides with `Char.isWhitespace`.) -/
def wordsAux : List Char → List Char → List (List Char)
  | [], acc => if acc.isEmpty then [] else [acc.reverse]
  | c :: cs, acc =>
    if c.isWhitespace then
      if acc.isEmpty then wordsAux cs [] else acc.reverse :: wordsAux cs []
    else wordsAux cs (c :: acc)

def tokenize (s : String) : List String := (wordsAux s.data []).map (⟨·⟩)

/-- The parse of the `--name-status` output lines: drop empty lines,
tokenize, and collect the paths (`t[1]`) of the lines whose status code
(`t[0]`) is `A`, `M` or `D` into the three lists.  Lines with any other
status code are logged as unhandled and dropped.  (A status token with no
path after it — which real `git diff` never emits — would surface as JS
`undefined`; the embedding drops it.) -/
def typedLines (lines : List String) : List (List String) :=
  (lines.filter (fun s => 0 < s.length)).map tokenize

def parseDiff (lines : List String) (fromHash tillHash : String) : ChangeSummary :=
  let typedFiles := typedLines lines
  { added := (typedFiles.filter (fun t => t.head? == some "A")).filterMap (fun t => t[1]?)
    modified := (typedFiles.filter (fun t => t.head? == some "M")).filterMap (fun t => t[1]?)
    removed := (typedFiles.filter (fun t => t.head? == some "D")).filterMap (fun t => t[1]?)
    fromHash := fromHash
    till := tillHash }

/-- `GitRepository.getModifiedAfter(fromCommit, tillCommit = "HEAD", log)`:
synchronize (`await` re-raises its error), resolve both refs, run the
diff, parse.  Each `await`ed failure propagates out as the thrown error. -/
def getModifiedAfter (env : DiffEnv) (fromCommit : String)
    (tillCommit : String := "HEAD") : Except String ChangeSummary :=
  match env.sync with
  | some msg => .error msg
  | none =>
    match getFullHash env fromCommit with
    | .error e => .error e
    | .ok fromHash =>
      match getFullHash env tillCommit with
      | .error e => .error e
      | .ok tillHash =>
        match env.runDiff (diffArgs fromHash tillHash) with
        | none => .error "git diff failed, see logs."
        | some lines => .ok (parseDiff lines fromHash tillHash)

/-- A full commit hash as the spec describes it: at least 40 hex
characters. -/
def isFullHash (s : String) : Bool :=
  decide (40 ≤ s.length) && s.data.all (fun c => c.isDigit || ('a' ≤ c && c ≤ 'f'))

/-! ## The execution worker (`GHActWorker`): full-update gathering

`gatherJobsForFullUpdate` walks the working tree, accumulates relative
file paths, seals a batch job every time the accumulator reaches 3000
files, seals the remainder, amends every id with ` of <total>`, and
inserts all batch jobs into the store.  The walk result is part of the
worker environment. -/

/-- A JavaScript exception as the worker observes it: its string
conversion `"" + error` and its optional `.stack`. -/
structure JSError where
  str : String
  stack : Option String
deriving DecidableEq, Repr

/-- Outcome of invoking the user callback `jobHandler(job, log)`: a
normal return (with the optional string message it resolves to) or a
thrown error. -/
inductive HandlerOutcome where
  | ok (msg : Option String)
  | throws (e : JSError)
deriving DecidableEq, Repr

/-- One entry yielded by `walk(directory, { includeDirs: false,
includeSymlinks: false })`. -/
structure WalkEntry where
  path : String
  isFile : Bool
deriving DecidableEq, Repr

/-- The remainder of `l` after `pre`, when `pre` is a prefix. -/
def dropPrefixList : List Char → List Char → Option (List Char)
  | l, [] => some l
  | [], _ :: _ => none
  | x :: xs, p :: ps => if x = p then dropPrefixList xs ps else none

def replaceFirstAux (pat : List Char) : List Char → List Char
  | [] => []
  | x :: xs =>
    match dropPrefixList (x :: xs) pat with
    | some rest => rest
    | none => x :: replaceFirstAux pat xs

/-- JavaScript `s.replace(pat, "")` with a string pattern: remove the
first occurrence of `pat`.  Used for
`walkEntry.path.replace(this.gitRepository.directory + "/", "")`. -/
def replaceFirst (s pat : String) : String := ⟨replaceFirstAux pat.data s.data⟩

/-- The batch job pushed when a batch is sealed: author from the config,
id `${date} full update: ${pad3 block}`, payload `{ modified: files }`. -/
def sealJob (title email date : String) (block : Nat) (files : List String) : Job :=
  { id := date ++ " full update: " ++ pad3 block
    author := ⟨title, email⟩
    files := some ⟨some files, none⟩ }

/-- The walk-and-batch loop of `gatherJobsForFullUpdate`: `block` is the
sealed-batch counter, `files` the current accumulator, `jobs` the sealed
jobs so far.  A batch is sealed as soon as the accumulator reaches 3000
paths; after the walk a non-empty remainder is sealed as the final job.
Returns the final `block` count and the sealed jobs. -/
def gatherWalk (title email date repoDir : String) :
    List WalkEntry → Nat → List String → List Job → Nat × List Job
  | [], block, files, jobs =>
    if 0 < files.length then
      (block + 1, jobs ++ [sealJob title email date (block + 1) files])
    else (block, jobs)
  | w :: rest, block, files, jobs =>
    if w.isFile then
      let files' := files ++ [replaceFirst w.path (repoDir ++ "/")]
      if 3000 ≤ files'.length then
        gatherWalk title email date repoDir rest (block + 1) []
          (jobs ++ [sealJob title email date (block + 1) files'])
      else gatherWalk title email date repoDir rest block files' jobs
    else gatherWalk title email date repoDir rest block files jobs

/-- `gatherJobsForFullUpdate`'s job list as inserted: the sealed batch
jobs with every id amended by ` of ${pad3 total}`
(`j.id += \x60 of ...\x60` inside the final `forEach`). -/
def fullUpdateJobs (title email date repoDir : String)
    (walk : List WalkEntry) : List Job :=
  let (block, jobs) := gatherWalk title email date repoDir walk 0 [] []
  jobs.map (fun j => { j with id := j.id ++ " of " ++ pad3 block })

/-- Reference chunking: split into consecutive batches, sealing at 3000. -/
def chunkGo : List String → List String → List (List String)
  | [], acc => if 0 < acc.length then [acc] else []
  | x :: xs, acc =>
    let acc' := acc ++ [x]
    if 3000 ≤ acc'.length then acc' :: chunkGo xs [] else chunkGo xs acc'

/-- Sealing a list of chunks into jobs with consecutive block numbers. -/
def sealChunks (title email date : String) (block : Nat) : List (List String) → List Job
  | [] => []
  | c :: cs => sealJob title email date (block + 1) c
      :: sealChunks title email date (block + 1) cs

/-- The relative paths of the file entries of the walk, in order. -/
def relPaths (repoDir : String) (walk : List WalkEntry) : List String :=
  (walk.filter (·.isFile)).map (fun w => replaceFirst w.path (repoDir ++ "/"))

/-- Number of files carried by a job's payload. -/
def filesCount (j : Job) : Nat :=
  match j.files with
  | some p => (p.modified.getD []).length
  | none => 0

/-- The directory entry a successful `addJob(j)` leaves behind. -/
def jobEntry (jobsDir : String) (j : Job) : DirEnt :=
  ⟨j.id, true, .valid (mkStatus jobsDir j .pending none)⟩

/-- The `jobs.forEach((j) => { …; this.queue.addJob(j); })` insertion
pass: insert jobs in order, stopping at the first thrown conflict (whose
message, by the worker's `catch`, becomes the gather job's failure
message). -/
def addJobsSeq (jobsDir : String) (st : Store) : List Job → Store × Option String
  | [] => (st, none)
  | j :: rest =>
    match addJob jobsDir st j with
    | .ok st' => addJobsSeq jobsDir st' rest
    | .error e => (st, some e)

/-! ## The execution worker (`GHActWorker`): `startTask` / `run`

The worker's state is the job store plus the `isRunning` flag.  `run()`
re-queries `pendingJobs()` from the store at the top of every iteration,
takes the first pending job, re-affirms it `pending`, and executes it
inside `try`/`catch`: a gather job runs `gatherJobsForFullUpdate` (whose
`finally` re-arms via `startTask()`, i.e. drains again), any other job
runs `updateLocalData` then the user callback, and a thrown error is
converted to a `failed` status with message `"" + error`.  The recursion
is driven by explicit fuel; the theorems require fuel at least the
number of pending jobs. -/

/-- The subprocess/callback oracle plus the worker configuration. -/
structure WorkerEnv where
  jobsDir : String
  repoDir : String
  title : String
  email : String
  sync : Job → Option JSError
  handler : Job → HandlerOutcome
  walk : List WalkEntry

/-- The body of one non-gather job execution after the worker set the
reaffirming `pending` status: `await updateLocalData(log)` (whose thrown
error is caught), then the callback (likewise), then the `completed`
status with the callback's message — or, in `catch`, the `failed` status
with message `"" + error`. -/
def processPlain (env : WorkerEnv) (st : Store) (job : Job) : Store :=
  match env.sync job with
  | some e => setStatus env.jobsDir st job .failed (some ("" ++ e.str))
  | none =>
    match env.handler job with
    | .throws e => setStatus env.jobsDir st job .failed (some ("" ++ e.str))
    | .ok msg => setStatus env.jobsDir st job .completed msg

/-- The `try`/`catch` body of `gatherJobsForFullUpdate(job, log)`:
synchronize, derive the date-stamp from `job.id.split(" ")[0]`, build and
insert the batch jobs, mark the gather job `completed` — any thrown
error (sync failure or an `addJob` conflict) marks it `failed`. -/
def gatherBody (env : WorkerEnv) (st : Store) (job : Job) : Store :=
  match env.sync job with
  | some e => setStatus env.jobsDir st job .failed (some ("" ++ e.str))
  | none =>
    let date := splitHead ' ' job.id
    match addJobsSeq env.jobsDir st
        (fullUpdateJobs env.title env.email date env.repoDir env.walk) with
    | (st', none) => setStatus env.jobsDir st' job .completed none
    | (st', some err) => setStatus env.jobsDir st' job .failed (some ("" ++ err))

/-- `GHActWorker.run()`: while `pendingJobs()` (re-queried from the store
each iteration) is non-empty, take the first record, reaffirm `pending`,
and execute.  A gather job's `finally { isRunning = false; await
this.startTask() }` re-arms the loop — the inner `runLoop` application —
after which the outer `while` re-checks the store — the outer
application. -/
def runLoop (env : WorkerEnv) : Nat → Store → Store
  | 0, st => st
  | fuel + 1, st =>
    match pendingJobs st with
    | [] => st
    | js :: _ =>
      let st1 := setStatus env.jobsDir st js.job .pending none
      if js.job.isGather then
        runLoop env fuel (runLoop env fuel (gatherBody env st1 js.job))
      else
        runLoop env fuel (processPlain env st1 js.job)

/-- The worker: its store and the `isRunning` re-entrancy flag. -/
structure Worker where
  store : Store
  running : Bool

/-- `GHActWorker.startTask()`: `if (this.isRunning) return;` — otherwise
set the flag, `await this.run()`, and clear the flag in `finally`.  The
boolean result records whether `run()` was invoked. -/
def startTask (env : WorkerEnv) (fuel : Nat) (w : Worker) : Worker × Bool :=
  if w.running then (w, false)
  else ({ store := runLoop env fuel w.store, running := false }, true)

/-- The non-init message handler: jobs were already stored by the
server, the message is only a trigger — `if (!this.isRunning) await
this.startTask(); else` the signal is dropped. -/
def onTrigger (env : WorkerEnv) (fuel : Nat) (w : Worker) : Worker × Bool :=
  if !w.running then startTask env fuel w else (w, false)

/-- The terminal status `processPlain` assigns. -/
def plainStatus (env : WorkerEnv) (job : Job) : JStatus :=
  match env.sync job with
  | some _ => .failed
  | none =>
    match env.handler job with
    | .throws _ => .failed
    | .ok _ => .completed

/-- The message `processPlain` records. -/
def plainMsg (env : WorkerEnv) (job : Job) : Option String :=
  match env.sync job with
  | some e => some ("" ++ e.str)
  | none =>
    match env.handler job with
    | .throws e => some ("" ++ e.str)
    | .ok msg => msg

/-- The pending-record selector applied per entry by
`pendingJobs`' read-filter pipeline. -/
def pendingSel (e : DirEnt) : Option JobStatus :=
  (readEntry e).bind (fun s => if s.status == .pending then some s else none)

/-- Number of pending records among the raw directory entries. -/
def pendingCount (st : Store) : Nat :=
  ((st.filter (·.isDirectory)).filterMap pendingSel).length

/-- The store's directory entry named `id`. -/
def lookupEntry (st : Store) (id : String) : Option DirEnt :=
  st.find? (fun e => e.name == id)

theorem ofDecDigits_decDigitsAux (fuel n : Nat) (h : n ≤ fuel) :
    ofDecDigits (decDigitsAux fuel n) = n := by
  induction fuel generalizing n with
  | zero =>
    have hn : n = 0 := Nat.le_zero.mp h
    subst hn
    rfl
  | succ fuel ih =>
    match n with
    | 0 => rfl
    | n + 1 =>
      have hle : (n + 1) / 10 ≤ fuel := by
        have := Nat.div_lt_self (Nat.succ_pos n) (by norm_num : 1 < 10)
        omega
      simp only [decDigitsAux, ofDecDigits, ih _ hle]
      omega

theorem charToDigit_digitChar {d : Nat} (h : d < 10) :
    charToDigit (Nat.digitChar d) = d := by
  interval_cases d <;> rfl

theorem decDigitsAux_lt_ten (fuel n : Nat) : ∀ d ∈ decDigitsAux fuel n, d < 10 := by
  induction fuel generalizing n with
  | zero =>
    match n with
    | 0 => intro d hd; simp [decDigitsAux] at hd
    | n + 1 => intro d hd; simp [decDigitsAux] at hd
  | succ fuel ih =>
    match n with
    | 0 => intro d hd; simp [decDigitsAux] at hd
    | n + 1 =>
      intro d hd
      simp only [decDigitsAux, List.mem_cons] at hd
      rcases hd with rfl | hd
      · exact Nat.mod_lt _ (by norm_num)
      · exact ih _ _ hd

theorem map_charToDigit_digitChar (l : List Nat) (h : ∀ d ∈ l, d < 10) :
    l.map (fun d => charToDigit (Nat.digitChar d)) = l := by
  induction l with
  | nil => rfl
  | cons d ds ih =>
    rw [List.map_cons, charToDigit_digitChar (h d (List.mem_cons_self d ds)),
      ih (fun x hx => h x (List.mem_cons_of_mem d hx))]

theorem parseDec_decRepr (n : Nat) : parseDec (decRepr n) = n := by
  by_cases h : n = 0
  · subst h; rfl
  · unfold parseDec decRepr
    simp only [h, if_false]
    show ofDecDigits (((((decDigitsAux n n).map Nat.digitChar).reverse).map charToDigit).reverse) = n
    rw [← List.map_reverse, List.reverse_reverse, List.map_map]
    have hmap : (decDigitsAux n n).map (charToDigit ∘ Nat.digitChar) = decDigitsAux n n :=
      map_charToDigit_digitChar _ (decDigitsAux_lt_ten n n)
    rw [hmap]
    exact ofDecDigits_decDigitsAux n n le_rfl

theorem decRepr_injective : Function.Injective decRepr := by
  intro a b h
  have := parseDec_decRepr a
  rw [h, parseDec_decRepr] at this
  exact this.symm

theorem ofDecDigits_replicate_zero (k : Nat) : ofDecDigits (List.replicate k 0) = 0 := by
  induction k with
  | zero => rfl
  | succ k ih => simp [List.replicate, ofDecDigits, ih]

theorem ofDecDigits_append_zeros (ds : List Nat) (k : Nat) :
    ofDecDigits (ds ++ List.replicate k 0) = ofDecDigits ds := by
  induction ds with
  | nil => simpa using ofDecDigits_replicate_zero k
  | cons d ds ih => simp [ofDecDigits, ih]

theorem parseDec_pad3 (n : Nat) : parseDec (pad3 n) = n := by
  unfold pad3
  by_cases h : (decRepr n).length < 3
  · simp only [h, if_true]
    have : parseDec ⟨List.replicate (3 - (decRepr n).length) '0' ++ (decRepr n).data⟩
        = parseDec (decRepr n) := by
      unfold parseDec
      show ofDecDigits (((List.replicate (3 - (decRepr n).length) '0'
          ++ (decRepr n).data).map charToDigit).reverse) = _
      rw [List.map_append, List.reverse_append, List.map_replicate, List.reverse_replicate]
      show ofDecDigits (((decRepr n).data.map charToDigit).reverse
          ++ List.replicate _ (charToDigit '0')) = _
      rw [show charToDigit '0' = 0 from rfl, ofDecDigits_append_zeros]
    rw [this, parseDec_decRepr]
  · simp only [h, if_false]
    exact parseDec_decRepr n

theorem pad3_injective : Function.Injective pad3 := by
  intro a b h
  have := parseDec_pad3 a
  rw [h, parseDec_pad3] at this
  exact this.symm

/-! ## General lemmas about sorting and filtering -/

theorem entryLe_trans (b : Bool) (x y z : DirEnt) :
    entryLe b x y → entryLe b y z → entryLe b x z := by
  cases b with
  | false =>
    simp only [entryLe, Bool.false_eq_true, if_false, decide_eq_true_eq]
    exact fun h1 h2 => le_trans h2 h1
  | true =>
    simp only [entryLe, if_true, decide_eq_true_eq]
    exact fun h1 h2 => le_trans h1 h2

theorem entryLe_total (b : Bool) (x y : DirEnt) : entryLe b x y || entryLe b y x := by
  unfold entryLe
  cases b <;> simp <;> exact le_total _ _

/-- Two lists that are permutations of each other and both sorted are
equal, provided the comparison is antisymmetric on the elements of the
first. -/
theorem eq_of_perm_of_pairwise {α : Type} {r : α → α → Prop} :
    ∀ {l₁ l₂ : List α}, l₁.Perm l₂ → l₁.Pairwise r → l₂.Pairwise r →
    (∀ a ∈ l₁, ∀ b ∈ l₁, r a b → r b a → a = b) → l₁ = l₂ := by
  intro l₁
  induction l₁ with
  | nil => intro l₂ hp _ _ _; exact (hp.nil_eq).symm ▸ rfl
  | cons a t₁ ih =>
    intro l₂ hp h₁ h₂ hanti
    match l₂ with
    | [] => exact absurd hp.symm (by simp)
    | b :: t₂ =>
      have hab : a = b := by
        by_contra hne
        have hbmem : b ∈ a :: t₁ := hp.symm.subset (List.mem_cons_self b t₂)
        have hbt₁ : b ∈ t₁ := by
          cases List.mem_cons.mp hbmem with
          | inl h => exact absurd h.symm hne
          | inr h => exact h
        have hamem : a ∈ b :: t₂ := hp.subset (List.mem_cons_self a t₁)
        have hat₂ : a ∈ t₂ := by
          cases List.mem_cons.mp hamem with
          | inl h => exact absurd h hne
          | inr h => exact h
        have hrab : r a b := (List.pairwise_cons.mp h₁).1 b hbt₁
        have hrba : r b a := (List.pairwise_cons.mp h₂).1 a hat₂
        exact hne (hanti a (List.mem_cons_self a t₁) b hbmem hrab hrba)
      subst hab
      have ht : t₁ = t₂ := by
        refine ih (hp.cons_inv) (List.pairwise_cons.mp h₁).2 (List.pairwise_cons.mp h₂).2 ?_
        intro x hx y hy
        exact hanti x (List.mem_cons_of_mem a hx) y (List.mem_cons_of_mem a hy)
      rw [ht]

/-- A `filter` after a `filterMap` fuses into one `filterMap`. -/
theorem filter_filterMap_fuse {α β : Type} (f : α → Option β) (p : β → Bool)
    (l : List α) :
    (l.filterMap f).filter p
      = l.filterMap (fun a => (f a).bind (fun b => if p b then some b else none)) := by
  induction l with
  | nil => rfl
  | cons x t ih =>
    cases hfx : f x with
    | none => simp [List.filterMap_cons, hfx, ih]
    | some b =>
      by_cases hpb : p b = true
      · simp [List.filterMap_cons, hfx, List.filter_cons, hpb, ih]
      · simp only [Bool.not_eq_true] at hpb
        simp [List.filterMap_cons, hfx, List.filter_cons, hpb, ih]

/-- If `l.filterMap f` has no duplicates, then distinct elements of `l`
cannot map to the same value. -/
theorem nodup_filterMap_inj {α β : Type} {f : α → Option β} :
    ∀ {l : List α}, (l.filterMap f).Nodup →
    ∀ a ∈ l, ∀ b ∈ l, ∀ v, f a = some v → f b = some v → a = b := by
  intro l
  induction l with
  | nil => intro _ a ha; exact absurd ha (by simp)
  | cons x t ih =>
    intro hnd a ha b hb v hfa hfb
    rcases List.mem_cons.mp ha with rfl | hat
    · rcases List.mem_cons.mp hb with rfl | hbt
      · rfl
      · exfalso
        rw [List.filterMap_cons, hfa] at hnd
        have : v ∈ t.filterMap f := List.mem_filterMap.mpr ⟨b, hbt, hfb⟩
        exact (List.nodup_cons.mp hnd).1 this
    · rcases List.mem_cons.mp hb with rfl | hbt
      · exfalso
        rw [List.filterMap_cons, hfb] at hnd
        have : v ∈ t.filterMap f := List.mem_filterMap.mpr ⟨a, hat, hfa⟩
        exact (List.nodup_cons.mp hnd).1 this
      · have hnd' : (t.filterMap f).Nodup := by
          rw [List.filterMap_cons] at hnd
          cases hfx : f x with
          | none => rwa [hfx] at hnd
          | some w => rw [hfx] at hnd; exact (List.nodup_cons.mp hnd).2
        exact ih hnd' a hat b hbt v hfa hfb

/-- `allJobs` with no pagination is a permutation of reading the directory
entries in their raw order. -/
theorem allJobs_perm (st : Store) (b : Bool) :
    (allJobs st b).Perm ((st.filter (·.isDirectory)).filterMap readEntry) := by
  unfold allJobs
  exact ((st.filter (·.isDirectory)).mergeSort_perm (entryLe b)).filterMap readEntry

/-- `pendingJobs` is a permutation of the pending records read from the
raw directory listing. -/
theorem pendingJobs_perm (st : Store) :
    (pendingJobs st).Perm ((st.filter (·.isDirectory)).filterMap
      (fun e => (readEntry e).bind
        (fun s => if s.status == .pending then some s else none))) := by
  unfold pendingJobs
  have h := (allJobs_perm st true).filter (fun js => js.status == .pending)
  rwa [filter_filterMap_fuse] at h

/-- In a store whose entry names are distinct, entries are determined by
their names. -/
theorem name_inj_of_nodup {l : List DirEnt} (h : (l.map (·.name)).Nodup) :
    ∀ a ∈ l, ∀ b ∈ l, a.name = b.name → a = b :=
  fun _ ha _ hb hab => List.inj_on_of_nodup_map h ha hb hab

/-- `allJobs` without pagination: filter, sort, read. -/
theorem allJobs_none_eq (st : Store) (b : Bool) :
    allJobs st b
      = ((st.filter (·.isDirectory)).mergeSort (entryLe b)).filterMap readEntry := rfl

/-- Sorting a list of distinctly named entries in descending name order
reverses an ascending-ordered list. -/
theorem mergeSort_desc_of_ascending {l : List DirEnt}
    (hsorted : l.Pairwise (fun a b => a.name < b.name)) :
    l.mergeSort (entryLe false) = l.reverse := by
  have hnodup : (l.map (·.name)).Nodup := by
    have h1 : (l.map (·.name)).Pairwise (· < ·) := List.pairwise_map.mpr hsorted
    exact h1.imp (fun h => ne_of_lt h)
  refine eq_of_perm_of_pairwise (r := fun a b => entryLe false a b = true) ?_ ?_ ?_ ?_
  · exact (l.mergeSort_perm (entryLe false)).trans l.reverse_perm.symm
  · exact List.sorted_mergeSort (entryLe_trans false) (entryLe_total false) l
  · rw [List.pairwise_reverse]
    refine hsorted.imp ?_
    intro a b hab
    simp only [entryLe, Bool.false_eq_true, if_false, decide_eq_true_eq]
    exact le_of_lt hab
  · intro a ha b hb hab hba
    simp only [List.mem_mergeSort] at ha hb
    simp only [entryLe, Bool.false_eq_true, if_false, decide_eq_true_eq] at hab hba
    exact name_inj_of_nodup hnodup a ha b hb (le_antisymm hba hab)

/-- **C7.** For every collection of job directories whose names, in
creation order, are lexicographically increasing, `allJobs(oldestFirst =
true)` returns the parsed status records in exactly that creation order,
and `allJobs` with `oldestFirst = false` returns them in the reverse,
newest-first order. -/
theorem C7_allJobs_listing_order (st : Store)
    (hdir : ∀ e ∈ st, e.isDirectory = true)
    (hsorted : st.Pairwise (fun a b => a.name < b.name)) :
    allJobs st true = st.filterMap readEntry ∧
    allJobs st false = (st.filterMap readEntry).reverse := by
  have hfilter : st.filter (·.isDirectory) = st :=
    List.filter_eq_self.mpr (fun e he => hdir e he)
  constructor
  · rw [allJobs_none_eq, hfilter]
    have hasc : st.Pairwise (fun a b => entryLe true a b = true) := by
      refine hsorted.imp ?_
      intro a b hab
      simp only [entryLe, if_true, decide_eq_true_eq]
      exact le_of_lt hab
    rw [List.mergeSort_of_sorted hasc]
  · rw [allJobs_none_eq, hfilter, mergeSort_desc_of_ascending hsorted,
      List.filterMap_reverse]

/-- A bad (missing or corrupt status file) entry contributes nothing to a
sorted-and-read listing, and removing it from the raw listing changes
nothing else, provided entry names are distinct. -/
theorem filterMap_mergeSort_skip_bad {l₁ l₂ : List DirEnt} {e : DirEnt} (b : Bool)
    (hbad : readEntry e = none)
    (hnodup : ((l₁ ++ e :: l₂).map (·.name)).Nodup) :
    ((l₁ ++ e :: l₂).mergeSort (entryLe b)).filterMap readEntry
      = ((l₁ ++ l₂).mergeSort (entryLe b)).filterMap readEntry := by
  have hmem : e ∈ (l₁ ++ e :: l₂).mergeSort (entryLe b) := by
    rw [List.mem_mergeSort]
    exact List.mem_append.mpr (Or.inr (List.mem_cons_self e l₂))
  obtain ⟨p₁, p₂, hdecomp⟩ := List.append_of_mem hmem
  have hperm : (p₁ ++ p₂).Perm (l₁ ++ l₂) := by
    have h1 : (p₁ ++ e :: p₂).Perm (l₁ ++ e :: l₂) := by
      rw [← hdecomp]; exact (l₁ ++ e :: l₂).mergeSort_perm (entryLe b)
    have h2 : (e :: (p₁ ++ p₂)).Perm (e :: (l₁ ++ l₂)) :=
      (List.perm_middle.symm.trans h1).trans List.perm_middle
    exact h2.cons_inv
  have hsorted₁ : (p₁ ++ p₂).Pairwise (fun a c => entryLe b a c = true) := by
    have hs : ((l₁ ++ e :: l₂).mergeSort (entryLe b)).Pairwise
        (fun a c => entryLe b a c = true) :=
      List.sorted_mergeSort (entryLe_trans b) (entryLe_total b) _
    rw [hdecomp] at hs
    exact hs.sublist ((p₂.sublist_cons_self e).append_left p₁)
  have heq : p₁ ++ p₂ = (l₁ ++ l₂).mergeSort (entryLe b) := by
    refine eq_of_perm_of_pairwise (r := fun a c => entryLe b a c = true)
      (hperm.trans ((l₁ ++ l₂).mergeSort_perm (entryLe b)).symm)
      hsorted₁
      (List.sorted_mergeSort (entryLe_trans b) (entryLe_total b) _) ?_
    intro a ha c hc hac hca
    have hnames : a.name = c.name := by
      cases b with
      | false =>
        simp only [entryLe, Bool.false_eq_true, if_false, decide_eq_true_eq] at hac hca
        exact le_antisymm hca hac
      | true =>
        simp only [entryLe, if_true, decide_eq_true_eq] at hac hca
        exact le_antisymm hac hca
    have hmem' : ∀ x ∈ p₁ ++ p₂, x ∈ l₁ ++ e :: l₂ := by
      intro x hx
      have : x ∈ p₁ ++ e :: p₂ := by
        rcases List.mem_append.mp hx with h | h
        · exact List.mem_append.mpr (Or.inl h)
        · exact List.mem_append.mpr (Or.inr (List.mem_cons_of_mem e h))
      rw [← hdecomp] at this
      exact List.mem_mergeSort.mp this
    exact name_inj_of_nodup hnodup a (hmem' a ha) c (hmem' c hc) hnames
  rw [hdecomp, List.filterMap_append, List.filterMap_cons, hbad, ← List.filterMap_append, heq]

/-- **C9.** `allJobs` never aborts the whole listing because of one bad
entry: a job directory whose `status.json` is missing, or whose contents
fail to parse, is (logged and) excluded from the result, and the listing
equals the listing of the store without that entry — every other
directory's status record is still returned. -/
theorem C9_allJobs_skips_bad_entries (l₁ l₂ : List DirEnt) (e : DirEnt) (b : Bool)
    (hbad : e.content = .missing ∨ ∃ raw, e.content = .corrupt raw)
    (hnodup : ((l₁ ++ e :: l₂).map (·.name)).Nodup) :
    allJobs (l₁ ++ e :: l₂) b = allJobs (l₁ ++ l₂) b := by
  have hread : readEntry e = none := by
    rcases hbad with h | ⟨raw, h⟩ <;> simp [readEntry, h]
  rw [allJobs_none_eq, allJobs_none_eq]
  by_cases hdir : e.isDirectory = true
  · have hf₁ : (l₁ ++ e :: l₂).filter (·.isDirectory)
        = l₁.filter (·.isDirectory) ++ e :: l₂.filter (·.isDirectory) := by
      rw [List.filter_append, List.filter_cons, if_pos hdir]
    have hf₂ : (l₁ ++ l₂).filter (·.isDirectory)
        = l₁.filter (·.isDirectory) ++ l₂.filter (·.isDirectory) :=
      List.filter_append _ _
    rw [hf₁, hf₂]
    refine filterMap_mergeSort_skip_bad b hread ?_
    have hsub : (l₁.filter (·.isDirectory) ++ e :: l₂.filter (·.isDirectory)).Sublist
        (l₁ ++ e :: l₂) :=
      List.Sublist.append (List.filter_sublist l₁)
        (List.Sublist.cons₂ e (List.filter_sublist l₂))
    exact List.Nodup.sublist (hsub.map (·.name)) hnodup
  · have hf₁ : (l₁ ++ e :: l₂).filter (·.isDirectory)
        = l₁.filter (·.isDirectory) ++ l₂.filter (·.isDirectory) := by
      rw [List.filter_append, List.filter_cons, if_neg hdir]
    rw [hf₁, List.filter_append]

/-- Witness for `C9_allJobs_skips_bad_entries`: a corrupt entry between
two good ones is dropped; the other two records survive. -/
theorem C9_allJobs_skips_bad_entries_witness :
    allJobs
      [⟨"2024-01-01", true, .valid ⟨⟨"2024-01-01", ⟨"t", "e"⟩, none, none, none, none⟩,
          .completed, none, "jobs/2024-01-01"⟩⟩,
       ⟨"2024-01-02", true, .corrupt "not json"⟩,
       ⟨"2024-01-03", true, .valid ⟨⟨"2024-01-03", ⟨"t", "e"⟩, none, none, none, none⟩,
          .pending, none, "jobs/2024-01-03"⟩⟩] true
      = allJobs
      [⟨"2024-01-01", true, .valid ⟨⟨"2024-01-01", ⟨"t", "e"⟩, none, none, none, none⟩,
          .completed, none, "jobs/2024-01-01"⟩⟩,
       ⟨"2024-01-03", true, .valid ⟨⟨"2024-01-03", ⟨"t", "e"⟩, none, none, none, none⟩,
          .pending, none, "jobs/2024-01-03"⟩⟩] true :=
  C9_allJobs_skips_bad_entries
    [⟨"2024-01-01", true, .valid ⟨⟨"2024-01-01", ⟨"t", "e"⟩, none, none, none, none⟩,
        .completed, none, "jobs/2024-01-01"⟩⟩]
    [⟨"2024-01-03", true, .valid ⟨⟨"2024-01-03", ⟨"t", "e"⟩, none, none, none, none⟩,
        .pending, none, "jobs/2024-01-03"⟩⟩]
    ⟨"2024-01-02", true, .corrupt "not json"⟩ true
    (Or.inr ⟨"not json", rfl⟩)
    (by decide)

theorem entryConsistent_valid {e : DirEnt} {s : JobStatus}
    (h : entryConsistent e = true) (hc : e.content = .valid s) : s.job.id = e.name := by
  unfold entryConsistent at h
  rw [hc] at h
  exact beq_iff_eq.mp h

/-- **C8.** `addJob(job)` creates a directory named exactly `job.id` under
the jobs root and writes an initial status record with status `pending`
and no message; it fails with a conflict error when an entry with that id
already exists; and after a successful `addJob(job)`, `pendingJobs()`
includes that job exactly once, with status `pending`. -/
theorem C8_addJob_pending_once (jobsDir : String) (st : Store) (job : Job)
    (hwf : WellFormed st) :
    ((∃ e ∈ st, e.name = job.id) →
      addJob jobsDir st job = .error (conflictError (pathJoin jobsDir job.id)))
    ∧ ((∀ e ∈ st, e.name ≠ job.id) →
      addJob jobsDir st job
        = .ok (st ++ [⟨job.id, true, .valid (mkStatus jobsDir job .pending none)⟩])
      ∧ (pendingJobs
            (st ++ [⟨job.id, true, .valid (mkStatus jobsDir job .pending none)⟩])).filter
          (fun s => s.job.id == job.id)
        = [mkStatus jobsDir job .pending none]) := by
  constructor
  · intro ⟨e, he, hname⟩
    have hcond : st.any (fun e => e.name == job.id) = true :=
      List.any_eq_true.mpr ⟨e, he, beq_iff_eq.mpr hname⟩
    simp [addJob, hcond]
  · intro hfresh
    have hcond : st.any (fun e => e.name == job.id) = false := by
      rw [List.any_eq_false]
      intro e he
      exact fun h => hfresh e he (beq_iff_eq.mp h)
    have hok : addJob jobsDir st job
        = .ok (st ++ [⟨job.id, true, .valid (mkStatus jobsDir job .pending none)⟩]) := by
      simp [addJob, hcond]
    refine ⟨hok, ?_⟩
    set rec0 : JobStatus := mkStatus jobsDir job .pending none with hrec
    set newEnt : DirEnt := ⟨job.id, true, .valid rec0⟩ with hnew
    set st' : Store := st ++ [newEnt] with hst'
    have hperm := (pendingJobs_perm st').filter (fun s => s.job.id == job.id)
    rw [filter_filterMap_fuse] at hperm
    have hraw : (st'.filter (·.isDirectory)).filterMap
        (fun e => ((readEntry e).bind
            (fun s => if s.status == .pending then some s else none)).bind
          (fun b => if b.job.id == job.id then some b else none))
        = [rec0] := by
      have hsplit : st'.filter (·.isDirectory)
          = st.filter (·.isDirectory) ++ [newEnt] := by
        rw [hst', List.filter_append]
        norm_num [hnew]
      rw [hsplit, List.filterMap_append]
      have hnil : (st.filter (·.isDirectory)).filterMap
          (fun e => ((readEntry e).bind
              (fun s => if s.status == .pending then some s else none)).bind
            (fun b => if b.job.id == job.id then some b else none)) = [] := by
        rw [List.filterMap_eq_nil_iff]
        intro e he
        have hemem : e ∈ st := List.mem_of_mem_filter he
        cases hcontent : e.content with
        | valid s =>
          have hid : s.job.id = e.name :=
            entryConsistent_valid (hwf.2 e hemem).2 hcontent
          have hne : s.job.id ≠ job.id := hid ▸ hfresh e hemem
          simp only [readEntry, hcontent, Option.some_bind, beq_iff_eq]
          by_cases hp : s.status = JStatus.pending
          · simp [hp, hne]
          · simp [hp]
        | missing => simp [readEntry, hcontent]
        | notDirectory => simp [readEntry, hcontent]
        | corrupt raw => simp [readEntry, hcontent]
      rw [hnil]
      simp [readEntry, hnew, hrec, mkStatus]
    rw [hraw] at hperm
    exact List.perm_singleton.mp hperm

/-- Witness for `C8_addJob_pending_once`: adding a job to an empty store. -/
theorem C8_addJob_pending_once_witness :
    addJob "jobs" [] ⟨"2024-01-01", ⟨"t", "e"⟩, none, none, none, none⟩
      = .ok [⟨"2024-01-01", true,
          .valid (mkStatus "jobs" ⟨"2024-01-01", ⟨"t", "e"⟩, none, none, none, none⟩
            .pending none)⟩]
    ∧ (pendingJobs [⟨"2024-01-01", true,
          .valid (mkStatus "jobs" ⟨"2024-01-01", ⟨"t", "e"⟩, none, none, none, none⟩
            .pending none)⟩]).filter
        (fun s => s.job.id == "2024-01-01")
      = [mkStatus "jobs" ⟨"2024-01-01", ⟨"t", "e"⟩, none, none, none, none⟩
          .pending none] :=
  (C8_addJob_pending_once "jobs" []
      ⟨"2024-01-01", ⟨"t", "e"⟩, none, none, none, none⟩
      (by decide)).2 (by decide)

/-- **C5.** `updateLocalData` is self-healing: with a git metadata
directory present it attempts a pull; if the pull reports failure, or no
metadata directory exists, it destroys the directory's contents
(`emptyDataDir`) and performs a fresh single-branch clone (`cloneRepo`),
so that a call that returns normally leaves a working clone of the
configured branch on disk; a failure of the recovery clone itself is
raised as an error.  (The hypothesis `hpull` says `git pull` only
succeeds inside an intact clone of the configured branch — the only kind
of clone this manager creates.) -/
theorem C5_updateLocalData_self_healing (env : SyncEnv) (directory : String)
    (fs : RepoFS)
    (hpull : env.pullSucceeds = true → fs.clonedBranch = some env.branch) :
    ((fs.dirExists && fs.gitDirExists) = true →
      (updateLocalData env directory fs).2.head? = some .pull)
    ∧ ((fs.dirExists && fs.gitDirExists) = false ∨ env.pullSucceeds = false →
      GitCmd.emptyDataDir ∈ (updateLocalData env directory fs).2
      ∧ GitCmd.clone env.branch ∈ (updateLocalData env directory fs).2)
    ∧ (∀ f, (updateLocalData env directory fs).1 = .ok f →
      f.clonedBranch = some env.branch)
    ∧ (((fs.dirExists && fs.gitDirExists) = false ∨ env.pullSucceeds = false) →
      env.cloneSucceeds = false →
      (updateLocalData env directory fs).1 = .error (cloneFailMsg env.uri directory)) := by
  obtain ⟨uri, branch, ps, cs⟩ := env
  obtain ⟨de, ge, cb⟩ := fs
  simp only at hpull
  cases ps <;> cases cs <;> cases de <;> cases ge <;>
    refine ⟨?_, ?_, ?_, ?_⟩ <;>
    simp_all [updateLocalData, cloneRepo, emptyDataDir]

/-- **C3.** When `fromRef` and `tillRef` resolve (via `getFullHash`) to
the same hash `h`, `getModifiedAfter` diffs `h^!` — the changes
introduced by that single commit alone — and returns their parse, not the
(always empty) range between the two equal hashes. -/
theorem C3_same_hash_single_commit_diff (env : DiffEnv) (fromRef tillRef : String)
    (h : String) (lines : List String)
    (hsync : env.sync = none)
    (hfrom : getFullHash env fromRef = .ok h)
    (htill : getFullHash env tillRef = .ok h)
    (hdiff : env.runDiff (diffArgs h h) = some lines) :
    diffArgs h h = ["diff", "--name-status", "--no-renames", h ++ "^!"]
    ∧ getModifiedAfter env fromRef tillRef = .ok (parseDiff lines h h) := by
  constructor
  · simp [diffArgs]
  · unfold getModifiedAfter
    rw [hsync, hfrom, htill]
    show (match env.runDiff (diffArgs h h) with
      | none => Except.error "git diff failed, see logs."
      | some lines => Except.ok (parseDiff lines h h)) = Except.ok (parseDiff lines h h)
    rw [hdiff]

/-- Witness for `C3_same_hash_single_commit_diff`: both refs resolve to
the same hash; the single-commit diff has one modified file, and the
summary is that file, not empty. -/
theorem C3_same_hash_single_commit_diff_witness :
    getModifiedAfter
      ⟨none,
        fun r => if r == "HEAD" || r == "abc" then some "abcdef\n" else none,
        fun a => if a == ["diff", "--name-status", "--no-renames", "abcdef^!"]
          then some ["M\tdocs/readme.md"] else none⟩
      "abc" "HEAD"
      = .ok (parseDiff ["M\tdocs/readme.md"] "abcdef" "abcdef")
    ∧ (parseDiff ["M\tdocs/readme.md"] "abcdef" "abcdef").modified = ["docs/readme.md"] := by
  have h := C3_same_hash_single_commit_diff
    ⟨none,
      fun r => if r == "HEAD" || r == "abc" then some "abcdef\n" else none,
      fun a => if a == ["diff", "--name-status", "--no-renames", "abcdef^!"]
        then some ["M\tdocs/readme.md"] else none⟩
    "abc" "HEAD" "abcdef" ["M\tdocs/readme.md"] rfl (by rfl) (by rfl) (by rfl)
  exact ⟨h.2, by rfl⟩

/-- **C10.** When the two refs resolve to different hashes,
`getModifiedAfter` passes `fromHash^@` (the parents of the `from` commit)
as the diff base and `tillHash` as the diff tip, so the parsed summary is
of the range that includes the changes introduced by the `from` commit
itself, not only those strictly between the two commits. -/
theorem C10_range_diff_from_parents (env : DiffEnv) (fromRef tillRef : String)
    (hf ht : String) (lines : List String)
    (hsync : env.sync = none)
    (hfrom : getFullHash env fromRef = .ok hf)
    (htill : getFullHash env tillRef = .ok ht)
    (hne : hf ≠ ht)
    (hdiff : env.runDiff (diffArgs hf ht) = some lines) :
    diffArgs hf ht = ["diff", "--name-status", "--no-renames", hf ++ "^@", ht]
    ∧ getModifiedAfter env fromRef tillRef = .ok (parseDiff lines hf ht) := by
  constructor
  · simp [diffArgs, hne]
  · unfold getModifiedAfter
    rw [hsync, hfrom, htill]
    show (match env.runDiff (diffArgs hf ht) with
      | none => Except.error "git diff failed, see logs."
      | some lines => Except.ok (parseDiff lines hf ht)) = Except.ok (parseDiff lines hf ht)
    rw [hdiff]

/-- Witness for `C10_range_diff_from_parents`. -/
theorem C10_range_diff_from_parents_witness :
    diffArgs "aaa0" "bbb0" = ["diff", "--name-status", "--no-renames", "aaa0^@", "bbb0"]
    ∧ getModifiedAfter
        ⟨none,
          fun r => if r == "f" then some "aaa0\n" else if r == "HEAD" then some "bbb0\n" else none,
          fun a => if a == ["diff", "--name-status", "--no-renames", "aaa0^@", "bbb0"]
            then some ["A\tx.txt", "D\ty.txt"] else none⟩
        "f" "HEAD"
      = .ok (parseDiff ["A\tx.txt", "D\ty.txt"] "aaa0" "bbb0") :=
  C10_range_diff_from_parents
    ⟨none,
      fun r => if r == "f" then some "aaa0\n" else if r == "HEAD" then some "bbb0\n" else none,
      fun a => if a == ["diff", "--name-status", "--no-renames", "aaa0^@", "bbb0"]
        then some ["A\tx.txt", "D\ty.txt"] else none⟩
    "f" "HEAD" "aaa0" "bbb0" ["A\tx.txt", "D\ty.txt"]
    rfl (by rfl) (by rfl) (by decide) (by rfl)

/-- Paths belonging to two different status codes in a duplicate-free
diff output cannot coincide. -/
theorem parseDiff_status_disjoint (lines : List String) (c₁ c₂ : String)
    (hnd : ((typedLines lines).filterMap (fun t => t[1]?)).Nodup)
    (hne : c₁ ≠ c₂) :
    ∀ p, p ∈ ((typedLines lines).filter
        (fun t => t.head? == some c₁)).filterMap (fun t => t[1]?) →
      p ∉ ((typedLines lines).filter
        (fun t => t.head? == some c₂)).filterMap (fun t => t[1]?) := by
  intro p hp₁ hp₂
  obtain ⟨t₁, ht₁, hv₁⟩ := List.mem_filterMap.mp hp₁
  obtain ⟨t₂, ht₂, hv₂⟩ := List.mem_filterMap.mp hp₂
  have hm₁ : t₁ ∈ typedLines lines := List.mem_of_mem_filter ht₁
  have hm₂ : t₂ ∈ typedLines lines := List.mem_of_mem_filter ht₂
  have heq : t₁ = t₂ := nodup_filterMap_inj hnd t₁ hm₁ t₂ hm₂ p hv₁ hv₂
  have hh₁ : (t₁.head? == some c₁) = true := (List.mem_filter.mp ht₁).2
  have hh₂ : (t₂.head? == some c₂) = true := (List.mem_filter.mp ht₂).2
  rw [heq] at hh₁
  have : some c₁ = some c₂ := (beq_iff_eq.mp hh₁).symm.trans (beq_iff_eq.mp hh₂)
  exact hne (Option.some.inj this)

/-- **C4.** For every valid `(fromRef, tillRef)` pair, the
`ChangeSummary` returned by `getModifiedAfter` has pairwise disjoint
`added`/`modified`/`removed` path lists, and its `from`/`till` fields
hold the full resolved commit hashes — never the symbolic names passed
in.  Hypotheses: synchronization and both `rev-parse` calls succeed,
`git rev-parse` emits full (40+ char hex) hashes, the diff runs, and —
as `git diff --name-status --no-renames` guarantees — no path occurs on
two output lines. -/
theorem C4_summary_disjoint_and_full_hashes (env : DiffEnv)
    (fromRef tillRef outF outT : String) (lines : List String)
    (hsync : env.sync = none)
    (hfrom : env.revParse fromRef = some outF)
    (htill : env.revParse tillRef = some outT)
    (hfull : ∀ r out, env.revParse r = some out → isFullHash (firstLine out) = true)
    (hdiff : env.runDiff (diffArgs (firstLine outF) (firstLine outT)) = some lines)
    (hnd : ((typedLines lines).filterMap (fun t => t[1]?)).Nodup) :
    getModifiedAfter env fromRef tillRef
      = .ok (parseDiff lines (firstLine outF) (firstLine outT))
    ∧ (∀ p ∈ (parseDiff lines (firstLine outF) (firstLine outT)).added,
        p ∉ (parseDiff lines (firstLine outF) (firstLine outT)).modified)
    ∧ (∀ p ∈ (parseDiff lines (firstLine outF) (firstLine outT)).added,
        p ∉ (parseDiff lines (firstLine outF) (firstLine outT)).removed)
    ∧ (∀ p ∈ (parseDiff lines (firstLine outF) (firstLine outT)).modified,
        p ∉ (parseDiff lines (firstLine outF) (firstLine outT)).removed)
    ∧ (parseDiff lines (firstLine outF) (firstLine outT)).fromHash = firstLine outF
    ∧ (parseDiff lines (firstLine outF) (firstLine outT)).till = firstLine outT
    ∧ isFullHash (parseDiff lines (firstLine outF) (firstLine outT)).fromHash = true
    ∧ isFullHash (parseDiff lines (firstLine outF) (firstLine outT)).till = true
    ∧ (isFullHash fromRef = false →
        (parseDiff lines (firstLine outF) (firstLine outT)).fromHash ≠ fromRef)
    ∧ (isFullHash tillRef = false →
        (parseDiff lines (firstLine outF) (firstLine outT)).till ≠ tillRef) := by
  have hfF : isFullHash (firstLine outF) = true := hfull fromRef outF hfrom
  have hfT : isFullHash (firstLine outT) = true := hfull tillRef outT htill
  have hok : getModifiedAfter env fromRef tillRef
      = .ok (parseDiff lines (firstLine outF) (firstLine outT)) := by
    unfold getModifiedAfter getFullHash
    rw [hsync, hfrom, htill]
    show (match env.runDiff (diffArgs (firstLine outF) (firstLine outT)) with
      | none => Except.error "git diff failed, see logs."
      | some lines => Except.ok (parseDiff lines (firstLine outF) (firstLine outT)))
      = _
    rw [hdiff]
  refine ⟨hok,
    parseDiff_status_disjoint lines "A" "M" hnd (by decide),
    parseDiff_status_disjoint lines "A" "D" hnd (by decide),
    parseDiff_status_disjoint lines "M" "D" hnd (by decide),
    rfl, rfl, hfF, hfT, ?_, ?_⟩
  · intro hsym heq
    rw [show (parseDiff lines (firstLine outF) (firstLine outT)).fromHash
      = firstLine outF from rfl] at heq
    rw [heq] at hfF
    rw [hfF] at hsym
    cases hsym
  · intro hsym heq
    rw [show (parseDiff lines (firstLine outF) (firstLine outT)).till
      = firstLine outT from rfl] at heq
    rw [heq] at hfT
    rw [hfT] at hsym
    cases hsym

/-- Witness for `C4_summary_disjoint_and_full_hashes`: symbolic refs
resolving to two 40-hex-char hashes, a three-line diff. -/
theorem C4_summary_disjoint_and_full_hashes_witness :
    getModifiedAfter
      ⟨none,
        fun r => if r == "main~1" then
            some "aaaaaaaaaaaaaaaaaaaaaaaaaaaaaaaaaaaaaaaa\n"
          else if r == "HEAD" then
            some "bbbbbbbbbbbbbbbbbbbbbbbbbbbbbbbbbbbbbbbb\n"
          else none,
        fun a => if a == ["diff", "--name-status", "--no-renames",
            "aaaaaaaaaaaaaaaaaaaaaaaaaaaaaaaaaaaaaaaa^@",
            "bbbbbbbbbbbbbbbbbbbbbbbbbbbbbbbbbbbbbbbb"]
          then some ["A\tnew.txt", "M\tchanged.txt", "D\tgone.txt"] else none⟩
      "main~1" "HEAD"
      = .ok (parseDiff ["A\tnew.txt", "M\tchanged.txt", "D\tgone.txt"]
          "aaaaaaaaaaaaaaaaaaaaaaaaaaaaaaaaaaaaaaaa"
          "bbbbbbbbbbbbbbbbbbbbbbbbbbbbbbbbbbbbbbbb")
    ∧ isFullHash "aaaaaaaaaaaaaaaaaaaaaaaaaaaaaaaaaaaaaaaa" = true
    ∧ isFullHash "main~1" = false := by
  have h := C4_summary_disjoint_and_full_hashes
    ⟨none,
      fun r => if r == "main~1" then
          some "aaaaaaaaaaaaaaaaaaaaaaaaaaaaaaaaaaaaaaaa\n"
        else if r == "HEAD" then
          some "bbbbbbbbbbbbbbbbbbbbbbbbbbbbbbbbbbbbbbbb\n"
        else none,
      fun a => if a == ["diff", "--name-status", "--no-renames",
          "aaaaaaaaaaaaaaaaaaaaaaaaaaaaaaaaaaaaaaaa^@",
          "bbbbbbbbbbbbbbbbbbbbbbbbbbbbbbbbbbbbbbbb"]
        then some ["A\tnew.txt", "M\tchanged.txt", "D\tgone.txt"] else none⟩
    "main~1" "HEAD"
    "aaaaaaaaaaaaaaaaaaaaaaaaaaaaaaaaaaaaaaaa\n"
    "bbbbbbbbbbbbbbbbbbbbbbbbbbbbbbbbbbbbbbbb\n"
    ["A\tnew.txt", "M\tchanged.txt", "D\tgone.txt"]
    rfl (by rfl) (by rfl)
    (by
      intro r out hr
      dsimp only at hr
      by_cases h1 : (r == "main~1") = true
      · rw [if_pos h1] at hr
        cases hr
        decide
      · rw [if_neg h1] at hr
        by_cases h2 : (r == "HEAD") = true
        · rw [if_pos h2] at hr
          cases hr
          decide
        · rw [if_neg h2] at hr
          cases hr)
    (by rfl) (by decide)
  exact ⟨h.1, by decide, by decide⟩

/-- Witness for `C5_updateLocalData_self_healing`: a corrupted clone
(`.git` present but pull fails) is wiped and re-cloned successfully. -/
theorem C5_updateLocalData_self_healing_witness :
    (updateLocalData ⟨"https://example.org/r.git", "main", false, true⟩ "/w/repository"
        ⟨true, true, none⟩).1
      = .ok ⟨true, true, some "main"⟩
    ∧ GitCmd.emptyDataDir
        ∈ (updateLocalData ⟨"https://example.org/r.git", "main", false, true⟩ "/w/repository"
            ⟨true, true, none⟩).2 := by
  have h := C5_updateLocalData_self_healing
    ⟨"https://example.org/r.git", "main", false, true⟩ "/w/repository"
    ⟨true, true, none⟩ (by intro h; cases h)
  refine ⟨?_, (h.2.1 (Or.inr rfl)).1⟩
  rfl

/-- Witness for `C7_allJobs_listing_order`: a concrete two-directory store
listed both ways. -/
theorem C7_allJobs_listing_order_witness :
    allJobs
      [⟨"2024-01-01", true, .valid ⟨⟨"2024-01-01", ⟨"t", "e"⟩, none, none, none, none⟩,
          .completed, none, "jobs/2024-01-01"⟩⟩,
       ⟨"2024-01-02", true, .valid ⟨⟨"2024-01-02", ⟨"t", "e"⟩, none, none, none, none⟩,
          .pending, none, "jobs/2024-01-02"⟩⟩] true
      = [⟨⟨"2024-01-01", ⟨"t", "e"⟩, none, none, none, none⟩,
          .completed, none, "jobs/2024-01-01"⟩,
         ⟨⟨"2024-01-02", ⟨"t", "e"⟩, none, none, none, none⟩,
          .pending, none, "jobs/2024-01-02"⟩] := by
  have h := C7_allJobs_listing_order
    [⟨"2024-01-01", true, .valid ⟨⟨"2024-01-01", ⟨"t", "e"⟩, none, none, none, none⟩,
        .completed, none, "jobs/2024-01-01"⟩⟩,
     ⟨"2024-01-02", true, .valid ⟨⟨"2024-01-02", ⟨"t", "e"⟩, none, none, none, none⟩,
        .pending, none, "jobs/2024-01-02"⟩⟩]
    (by decide)
    (by
      refine List.Pairwise.cons (fun e he => ?_) (List.pairwise_singleton _ _)
      rw [List.mem_singleton] at he
      subst he
      exact String.lt_iff_toList_lt.mpr (by decide))
  rw [h.1]
  rfl

theorem sealChunks_length (title email date : String) (block : Nat)
    (cs : List (List String)) :
    (sealChunks title email date block cs).length = cs.length := by
  induction cs generalizing block with
  | nil => rfl
  | cons c cs ih => simp [sealChunks, ih]

/-- `gatherWalk` seals exactly the reference chunking of the relative
file paths, numbering the new batches consecutively from `block + 1`. -/
theorem gatherWalk_eq_chunks (title email date repoDir : String) :
    ∀ (walk : List WalkEntry) (block : Nat) (files : List String) (jobs : List Job),
    gatherWalk title email date repoDir walk block files jobs
      = (block + (chunkGo (relPaths repoDir walk) files).length,
         jobs ++ sealChunks title email date block (chunkGo (relPaths repoDir walk) files)) := by
  intro walk
  induction walk with
  | nil =>
    intro block files jobs
    simp only [relPaths, List.filter_nil, List.map_nil, gatherWalk, chunkGo]
    by_cases h : 0 < files.length
    · simp [h, sealChunks]
    · simp [h, sealChunks]
  | cons w rest ih =>
    intro block files jobs
    by_cases hw : w.isFile
    · have hrel : relPaths repoDir (w :: rest)
          = replaceFirst w.path (repoDir ++ "/") :: relPaths repoDir rest := by
        simp [relPaths, List.filter_cons, hw]
      rw [hrel]
      simp only [gatherWalk, hw, if_true]
      by_cases hseal : 3000 ≤ (files ++ [replaceFirst w.path (repoDir ++ "/")]).length
      · rw [if_pos hseal]
        show gatherWalk title email date repoDir rest (block + 1) [] _ = _
        rw [ih]
        simp only [chunkGo]
        rw [if_pos hseal, Prod.mk.injEq]
        constructor
        · simp [sealChunks_length]
          omega
        · simp only [sealChunks, List.append_assoc, List.singleton_append]
      · rw [if_neg hseal]
        show gatherWalk title email date repoDir rest block _ jobs = _
        rw [ih]
        simp only [chunkGo]
        rw [if_neg hseal]
    · have hrel : relPaths repoDir (w :: rest) = relPaths repoDir rest := by
        simp [relPaths, List.filter_cons, hw]
      rw [hrel]
      simp only [gatherWalk, hw, if_false]
      exact ih block files jobs

theorem chunkGo_length (l acc : List String) (hacc : acc.length < 3000) :
    (chunkGo l acc).length = (acc.length + l.length + 2999) / 3000 := by
  induction l generalizing acc with
  | nil =>
    simp only [chunkGo, List.length_nil]
    by_cases h : 0 < acc.length
    · rw [if_pos h]
      simp only [List.length_singleton]
      omega
    · rw [if_neg h]
      simp only [List.length_nil]
      omega
  | cons x xs ih =>
    simp only [chunkGo]
    by_cases hseal : 3000 ≤ (acc ++ [x]).length
    · rw [if_pos hseal]
      simp only [List.length_cons, ih [] (by norm_num), List.length_nil,
        List.length_append, List.length_singleton]
      simp only [List.length_append, List.length_singleton] at hseal
      omega
    · rw [if_neg hseal]
      rw [ih (acc ++ [x]) (by simp only [List.length_append, List.length_singleton] at *; omega)]
      simp only [List.length_append, List.length_singleton, List.length_cons, List.length_nil]
      simp only [List.length_append, List.length_singleton, List.length_cons,
        List.length_nil] at hseal
      omega

theorem chunkGo_mem_le (l acc : List String) (hacc : acc.length < 3000) :
    ∀ c ∈ chunkGo l acc, 1 ≤ c.length ∧ c.length ≤ 3000 := by
  induction l generalizing acc with
  | nil =>
    intro c hc
    simp only [chunkGo] at hc
    by_cases h : 0 < acc.length
    · rw [if_pos h, List.mem_singleton] at hc
      subst hc
      omega
    · rw [if_neg h] at hc
      exact absurd hc (by simp)
  | cons x xs ih =>
    intro c hc
    simp only [chunkGo] at hc
    by_cases hseal : 3000 ≤ (acc ++ [x]).length
    · rw [if_pos hseal, List.mem_cons] at hc
      rcases hc with rfl | hc
      · simp only [List.length_append, List.length_singleton] at *
        omega
      · exact ih [] (by norm_num) c hc
    · rw [if_neg hseal] at hc
      refine ih (acc ++ [x]) ?_ c hc
      simp only [List.length_append, List.length_singleton] at *
      omega

theorem chunkGo_dropLast_sizes (l acc : List String) (hacc : acc.length < 3000) :
    ∀ c ∈ (chunkGo l acc).dropLast, c.length = 3000 := by
  induction l generalizing acc with
  | nil =>
    intro c hc
    simp only [chunkGo] at hc
    by_cases h : 0 < acc.length
    · rw [if_pos h] at hc
      exact absurd hc (by simp)
    · rw [if_neg h] at hc
      exact absurd hc (by simp)
  | cons x xs ih =>
    intro c hc
    simp only [chunkGo] at hc
    by_cases hseal : 3000 ≤ (acc ++ [x]).length
    · rw [if_pos hseal] at hc
      cases hrest : chunkGo xs [] with
      | nil => rw [hrest] at hc; exact absurd hc (by simp)
      | cons c' cs' =>
        rw [hrest, List.dropLast_cons₂, List.mem_cons] at hc
        rcases hc with rfl | hc
        · simp only [List.length_append, List.length_singleton] at *
          omega
        · rw [← hrest] at hc
          exact ih [] (by norm_num) c hc
    · rw [if_neg hseal] at hc
      refine ih (acc ++ [x]) ?_ c hc
      simp only [List.length_append, List.length_singleton] at *
      omega

theorem chunkGo_sum (l acc : List String) :
    ((chunkGo l acc).map List.length).sum = acc.length + l.length := by
  induction l generalizing acc with
  | nil =>
    simp only [chunkGo, List.length_nil]
    by_cases h : 0 < acc.length
    · rw [if_pos h]
      simp
    · rw [if_neg h]
      simp only [List.map_nil, List.sum_nil]
      omega
  | cons x xs ih =>
    simp only [chunkGo]
    by_cases hseal : 3000 ≤ (acc ++ [x]).length
    · rw [if_pos hseal]
      rw [List.map_cons, List.sum_cons, ih []]
      have h1 : (acc ++ [x]).length = acc.length + 1 := by simp
      rw [h1] at hseal
      rw [h1]
      simp only [List.length_nil, List.length_cons]
      omega
    · rw [if_neg hseal]
      rw [ih (acc ++ [x])]
      have h1 : (acc ++ [x]).length = acc.length + 1 := by simp
      rw [h1]
      simp only [List.length_cons]
      omega

theorem sealChunks_map_id (title email date : String) :
    ∀ (cs : List (List String)) (block : Nat),
    (sealChunks title email date block cs).map (·.id)
      = (List.range cs.length).map
          (fun i => date ++ " full update: " ++ pad3 (block + 1 + i)) := by
  intro cs
  induction cs with
  | nil => intro block; rfl
  | cons c cs ih =>
    intro block
    simp only [sealChunks, List.map_cons, List.length_cons, List.range_succ_eq_map,
      List.map_map, sealJob]
    refine congrArg₂ _ (by rw [Nat.add_zero]) ?_
    rw [ih (block + 1)]
    refine List.map_congr_left ?_
    intro i _
    simp only [Function.comp]
    have : block + 1 + 1 + i = block + 1 + (i + 1) := by omega
    rw [this]

theorem sealChunks_map_files (title email date : String) :
    ∀ (cs : List (List String)) (block : Nat),
    (sealChunks title email date block cs).map filesCount = cs.map List.length := by
  intro cs
  induction cs with
  | nil => intro block; rfl
  | cons c cs ih =>
    intro block
    simp only [sealChunks, List.map_cons, sealJob, filesCount, Option.getD]
    rw [ih (block + 1)]

theorem addJob_of_fresh (jobsDir : String) (st : Store) (job : Job)
    (hfresh : ∀ e ∈ st, e.name ≠ job.id) :
    addJob jobsDir st job = .ok (st ++ [jobEntry jobsDir job]) := by
  have hcond : st.any (fun e => e.name == job.id) = false := by
    rw [List.any_eq_false]
    intro e he
    exact fun h => hfresh e he (beq_iff_eq.mp h)
  simp [addJob, hcond, jobEntry]

theorem addJobsSeq_ok (jobsDir : String) :
    ∀ (jobs : List Job) (st : Store),
    (∀ j ∈ jobs, ∀ e ∈ st, e.name ≠ j.id) → (jobs.map (·.id)).Nodup →
    addJobsSeq jobsDir st jobs = (st ++ jobs.map (jobEntry jobsDir), none) := by
  intro jobs
  induction jobs with
  | nil => intro st _ _; simp [addJobsSeq]
  | cons j rest ih =>
    intro st hfresh hnd
    have hj : addJob jobsDir st j = .ok (st ++ [jobEntry jobsDir j]) :=
      addJob_of_fresh jobsDir st j (hfresh j (List.mem_cons_self j rest))
    rw [List.map_cons] at hnd
    obtain ⟨hid, hnd'⟩ := List.nodup_cons.mp hnd
    have hstep : addJobsSeq jobsDir st (j :: rest)
        = addJobsSeq jobsDir (st ++ [jobEntry jobsDir j]) rest := by
      show (match addJob jobsDir st j with
        | .ok st' => addJobsSeq jobsDir st' rest
        | .error e => (st, some e)) = _
      rw [hj]
    rw [hstep, ih (st ++ [jobEntry jobsDir j]) ?_ hnd']
    · simp [jobEntry]
    · intro j' hj' e he
      rcases List.mem_append.mp he with hst | hnew
      · exact hfresh j' (List.mem_cons_of_mem j hj') e hst
      · rw [List.mem_singleton] at hnew
        subst hnew
        show j.id ≠ j'.id
        intro hcontra
        exact hid (hcontra ▸ List.mem_map_of_mem (·.id) hj')

theorem filterMap_ext_mem {α β : Type} (f g : α → Option β) (l : List α)
    (h : ∀ a ∈ l, f a = g a) : l.filterMap f = l.filterMap g := by
  induction l with
  | nil => rfl
  | cons x t ih =>
    rw [List.filterMap_cons, List.filterMap_cons, h x (List.mem_cons_self x t),
      ih (fun a ha => h a (List.mem_cons_of_mem x ha))]

/-- In a duplicate-free job list, filtering for one member's id selects
exactly that member's fresh pending record. -/
theorem filterMap_id_match (jobsDir : String) (j : Job) :
    ∀ (jobs : List Job), (jobs.map (·.id)).Nodup → j ∈ jobs →
    jobs.filterMap (fun x => if x.id == j.id
        then some (mkStatus jobsDir x .pending none) else none)
      = [mkStatus jobsDir j .pending none] := by
  intro jobs
  induction jobs with
  | nil => intro _ h; exact absurd h (by simp)
  | cons a rest ih =>
    intro hnd hj
    rw [List.map_cons] at hnd
    obtain ⟨hid, hnd'⟩ := List.nodup_cons.mp hnd
    rw [List.filterMap_cons]
    rcases List.mem_cons.mp hj with rfl | hjrest
    · have htail : rest.filterMap (fun x => if x.id == j.id
          then some (mkStatus jobsDir x .pending none) else none) = [] := by
        rw [List.filterMap_eq_nil_iff]
        intro x hx
        have hne : x.id ≠ j.id := fun hcontra =>
          hid (hcontra ▸ List.mem_map_of_mem (·.id) hx)
        simp [hne]
      simp only [htail]
      simp only [beq_self_eq_true, if_true]
    · have hne : a.id ≠ j.id := by
        intro hcontra
        exact hid (hcontra ▸ List.mem_map_of_mem (·.id) hjrest)
      simp only [beq_eq_false_iff_ne.mpr hne, if_false]
      exact ih hnd' hjrest

/-- After inserting a batch of distinctly named fresh jobs, each of them
is pending in the store exactly once. -/
theorem pending_once_after_batch (jobsDir : String) (st : Store) (jobs : List Job)
    (hwf : WellFormed st)
    (hfresh : ∀ j ∈ jobs, ∀ e ∈ st, e.name ≠ j.id)
    (hnd : (jobs.map (·.id)).Nodup) :
    ∀ j ∈ jobs, (pendingJobs (st ++ jobs.map (jobEntry jobsDir))).filter
        (fun s => s.job.id == j.id) = [mkStatus jobsDir j .pending none] := by
  intro j hj
  set st' : Store := st ++ jobs.map (jobEntry jobsDir) with hst'
  have hperm := (pendingJobs_perm st').filter (fun s => s.job.id == j.id)
  rw [filter_filterMap_fuse] at hperm
  have hsplit : st'.filter (·.isDirectory)
      = st.filter (·.isDirectory) ++ jobs.map (jobEntry jobsDir) := by
    rw [hst', List.filter_append]
    congr 1
    refine List.filter_eq_self.mpr ?_
    intro e he
    obtain ⟨j', _, rfl⟩ := List.mem_map.mp he
    rfl
  have hnil : (st.filter (·.isDirectory)).filterMap
      (fun e => ((readEntry e).bind
          (fun s => if s.status == .pending then some s else none)).bind
        (fun b => if b.job.id == j.id then some b else none)) = [] := by
    rw [List.filterMap_eq_nil_iff]
    intro e he
    have hemem : e ∈ st := List.mem_of_mem_filter he
    cases hcontent : e.content with
    | valid s =>
      have hid : s.job.id = e.name :=
        entryConsistent_valid (hwf.2 e hemem).2 hcontent
      have hne : s.job.id ≠ j.id := by
        rw [hid]
        exact hfresh j hj e hemem
      simp only [readEntry, hcontent, Option.some_bind, beq_iff_eq]
      by_cases hp : s.status = JStatus.pending
      · simp [hp, hne]
      · simp [hp]
    | missing => simp [readEntry, hcontent]
    | notDirectory => simp [readEntry, hcontent]
    | corrupt raw => simp [readEntry, hcontent]
  have hjobs : (jobs.map (jobEntry jobsDir)).filterMap
      (fun e => ((readEntry e).bind
          (fun s => if s.status == .pending then some s else none)).bind
        (fun b => if b.job.id == j.id then some b else none))
      = [mkStatus jobsDir j .pending none] := by
    rw [List.filterMap_map]
    have hfun : ∀ x ∈ jobs,
        ((fun e => ((readEntry e).bind
            (fun s => if s.status == .pending then some s else none)).bind
          (fun b => if b.job.id == j.id then some b else none)) ∘ jobEntry jobsDir) x
        = (fun x => if x.id == j.id
            then some (mkStatus jobsDir x .pending none) else none) x := by
      intro x _
      simp [jobEntry, readEntry, mkStatus]
    rw [filterMap_ext_mem _ _ jobs hfun]
    exact filterMap_id_match jobsDir j jobs hnd hj
  rw [hsplit, List.filterMap_append, hnil, List.nil_append, hjobs] at hperm
  exact List.perm_singleton.mp hperm

theorem fullUpdateJobs_eq (title email date repoDir : String) (walk : List WalkEntry) :
    fullUpdateJobs title email date repoDir walk
      = (sealChunks title email date 0 (chunkGo (relPaths repoDir walk) [])).map
          (fun j => { j with id := (j.id ++ " of "
            ++ pad3 (chunkGo (relPaths repoDir walk) []).length) }) := by
  unfold fullUpdateJobs
  rw [gatherWalk_eq_chunks]
  simp

theorem fullUpdateJobs_length (title email date repoDir : String)
    (walk : List WalkEntry) :
    (fullUpdateJobs title email date repoDir walk).length
      = ((walk.filter (·.isFile)).length + 2999) / 3000 := by
  rw [fullUpdateJobs_eq, List.length_map, sealChunks_length,
    chunkGo_length _ [] (by norm_num)]
  simp [relPaths]

theorem fullUpdateJobs_ids (title email date repoDir : String)
    (walk : List WalkEntry) :
    (fullUpdateJobs title email date repoDir walk).map (·.id)
      = (List.range (fullUpdateJobs title email date repoDir walk).length).map
          (fun i => date ++ " full update: " ++ pad3 (i + 1) ++ " of "
            ++ pad3 (fullUpdateJobs title email date repoDir walk).length) := by
  have hlen : (fullUpdateJobs title email date repoDir walk).length
      = (chunkGo (relPaths repoDir walk) []).length := by
    rw [fullUpdateJobs_eq, List.length_map, sealChunks_length]
  rw [hlen, fullUpdateJobs_eq, List.map_map]
  have hcomp : ((·.id) ∘ fun j : Job => { j with id := (j.id ++ " of "
      ++ pad3 (chunkGo (relPaths repoDir walk) []).length) })
      = (fun s => s ++ " of " ++ pad3 (chunkGo (relPaths repoDir walk) []).length)
        ∘ (·.id) := rfl
  rw [hcomp, ← List.map_map, sealChunks_map_id, List.map_map]
  refine List.map_congr_left ?_
  intro i _
  simp only [Function.comp]
  have : 0 + 1 + i = i + 1 := by omega
  rw [this]

theorem fullUpdateJobs_files (title email date repoDir : String)
    (walk : List WalkEntry) :
    (fullUpdateJobs title email date repoDir walk).map filesCount
      = (chunkGo (relPaths repoDir walk) []).map List.length := by
  rw [fullUpdateJobs_eq, List.map_map]
  have hcomp : (filesCount ∘ fun j : Job => { j with id := (j.id ++ " of "
      ++ pad3 (chunkGo (relPaths repoDir walk) []).length) }) = filesCount := rfl
  rw [hcomp, sealChunks_map_files]

theorem batch_id_injective (date : String) (total : Nat) :
    Function.Injective (fun i : Nat =>
      date ++ " full update: " ++ pad3 (i + 1) ++ " of " ++ pad3 total) := by
  intro i j h
  have hdata := congrArg String.data h
  simp only [String.data_append] at hdata
  have h1 := List.append_cancel_right hdata
  have h2 := List.append_cancel_right h1
  have h3 := List.append_cancel_left h2
  have hpad : pad3 (i + 1) = pad3 (j + 1) := String.ext h3
  have := pad3_injective hpad
  omega

theorem fullUpdateJobs_ids_nodup (title email date repoDir : String)
    (walk : List WalkEntry) :
    ((fullUpdateJobs title email date repoDir walk).map (·.id)).Nodup := by
  rw [fullUpdateJobs_ids]
  exact (List.nodup_range _).map (batch_id_injective date _)

/-- **C6.** For a walked working tree with `T` files,
`gatherJobsForFullUpdate` creates exactly `⌈T / 3000⌉` batch jobs: every
batch but the last holds exactly 3000 files and together they hold all
`T`; the i-th job's id is the gather job's date-stamp plus
` full update: ` plus the zero-padded sequence number `i`, amended with
` of <total>`; and inserting them into a store where the ids are fresh
succeeds and leaves each batch job pending exactly once. -/
theorem C6_full_update_batching (title email date repoDir jobsDir : String)
    (walk : List WalkEntry) (st : Store)
    (hwf : WellFormed st)
    (hfresh : ∀ j ∈ fullUpdateJobs title email date repoDir walk,
      ∀ e ∈ st, e.name ≠ j.id) :
    (fullUpdateJobs title email date repoDir walk).length
      = ((walk.filter (·.isFile)).length + 2999) / 3000
    ∧ (fullUpdateJobs title email date repoDir walk).map (·.id)
      = (List.range (fullUpdateJobs title email date repoDir walk).length).map
          (fun i => date ++ " full update: " ++ pad3 (i + 1) ++ " of "
            ++ pad3 (fullUpdateJobs title email date repoDir walk).length)
    ∧ (∀ n ∈ ((fullUpdateJobs title email date repoDir walk).map filesCount).dropLast,
        n = 3000)
    ∧ ((fullUpdateJobs title email date repoDir walk).map filesCount).sum
      = (walk.filter (·.isFile)).length
    ∧ addJobsSeq jobsDir st (fullUpdateJobs title email date repoDir walk)
      = (st ++ (fullUpdateJobs title email date repoDir walk).map (jobEntry jobsDir),
         none)
    ∧ ∀ j ∈ fullUpdateJobs title email date repoDir walk,
      (pendingJobs (st ++ (fullUpdateJobs title email date repoDir walk).map
          (jobEntry jobsDir))).filter (fun s => s.job.id == j.id)
        = [mkStatus jobsDir j .pending none] := by
  refine ⟨fullUpdateJobs_length title email date repoDir walk,
    fullUpdateJobs_ids title email date repoDir walk, ?_, ?_, ?_, ?_⟩
  · intro n hn
    rw [fullUpdateJobs_files, ← List.map_dropLast] at hn
    obtain ⟨c, hc, rfl⟩ := List.mem_map.mp hn
    exact chunkGo_dropLast_sizes _ [] (by norm_num) c hc
  · rw [fullUpdateJobs_files, chunkGo_sum]
    simp [relPaths]
  · exact addJobsSeq_ok jobsDir _ st hfresh
      (fullUpdateJobs_ids_nodup title email date repoDir walk)
  · exact pending_once_after_batch jobsDir st _ hwf hfresh
      (fullUpdateJobs_ids_nodup title email date repoDir walk)

/-- Witness for `C6_full_update_batching`: a walk of two files and one
skipped non-file entry gathers into a single pending batch job. -/
theorem C6_full_update_batching_witness :
    (fullUpdateJobs "T" "e@x" "2024-05-05" "/w/repository"
        [⟨"/w/repository/a.txt", true⟩, ⟨"/w/repository/sub", false⟩,
         ⟨"/w/repository/b.txt", true⟩]).length = 1
    ∧ ((fullUpdateJobs "T" "e@x" "2024-05-05" "/w/repository"
        [⟨"/w/repository/a.txt", true⟩, ⟨"/w/repository/sub", false⟩,
         ⟨"/w/repository/b.txt", true⟩]).map filesCount).sum = 2
    ∧ addJobsSeq "jobs" []
        (fullUpdateJobs "T" "e@x" "2024-05-05" "/w/repository"
          [⟨"/w/repository/a.txt", true⟩, ⟨"/w/repository/sub", false⟩,
           ⟨"/w/repository/b.txt", true⟩])
      = ((fullUpdateJobs "T" "e@x" "2024-05-05" "/w/repository"
          [⟨"/w/repository/a.txt", true⟩, ⟨"/w/repository/sub", false⟩,
           ⟨"/w/repository/b.txt", true⟩]).map (jobEntry "jobs"), none) := by
  have h := C6_full_update_batching "T" "e@x" "2024-05-05" "/w/repository" "jobs"
    [⟨"/w/repository/a.txt", true⟩, ⟨"/w/repository/sub", false⟩,
     ⟨"/w/repository/b.txt", true⟩] []
    (by decide) (by intro j _ e he; exact absurd he (by simp))
  refine ⟨?_, ?_, ?_⟩
  · rw [h.1]
    decide
  · rw [h.2.2.2.1]
    decide
  · have := h.2.2.2.2.1
    simpa using this

theorem processPlain_eq (env : WorkerEnv) (st : Store) (job : Job) :
    processPlain env st job
      = setStatus env.jobsDir st job (plainStatus env job) (plainMsg env job) := by
  unfold processPlain plainStatus plainMsg
  cases env.sync job with
  | some e => rfl
  | none => cases env.handler job with
    | throws e => rfl
    | ok msg => rfl

theorem plainStatus_ne_pending (env : WorkerEnv) (job : Job) :
    plainStatus env job ≠ .pending := by
  unfold plainStatus
  cases env.sync job with
  | some e => exact fun h => by cases h
  | none => cases env.handler job with
    | throws e => exact fun h => by cases h
    | ok msg => exact fun h => by cases h

theorem empty_append_str (s : String) : "" ++ s = s :=
  String.ext (by simp)

theorem pendingJobs_length (st : Store) :
    (pendingJobs st).length = pendingCount st :=
  (pendingJobs_perm st).length_eq

theorem mem_pendingJobs_iff (st : Store) (js : JobStatus) :
    js ∈ pendingJobs st ↔
      ∃ e ∈ st, e.isDirectory = true ∧ e.content = .valid js
        ∧ js.status = .pending := by
  rw [(pendingJobs_perm st).mem_iff, List.mem_filterMap]
  constructor
  · rintro ⟨e, he, hsel⟩
    have hes : e ∈ st := List.mem_of_mem_filter he
    have hdir : e.isDirectory = true := (List.mem_filter.mp he).2
    cases hc : e.content with
    | valid s =>
      simp only [readEntry, hc, Option.some_bind] at hsel
      by_cases hp : (s.status == JStatus.pending) = true
      · rw [if_pos hp] at hsel
        cases hsel
        exact ⟨e, hes, hdir, hc, beq_iff_eq.mp hp⟩
      · rw [if_neg hp] at hsel
        cases hsel
    | missing => simp [readEntry, hc] at hsel
    | notDirectory => simp [readEntry, hc] at hsel
    | corrupt raw => simp [readEntry, hc] at hsel
  · rintro ⟨e, he, hdir, hc, hp⟩
    refine ⟨e, List.mem_filter.mpr ⟨he, hdir⟩, ?_⟩
    simp [readEntry, hc, hp]

theorem names_unique_of_decomp (l₁ l₂ : List DirEnt) (e : DirEnt)
    (hnodup : ((l₁ ++ e :: l₂).map (·.name)).Nodup) :
    (∀ x ∈ l₁, x.name ≠ e.name) ∧ (∀ x ∈ l₂, x.name ≠ e.name) := by
  rw [List.map_append, List.map_cons] at hnodup
  obtain ⟨hn₁, hn₂, hdisj⟩ := List.nodup_append.mp hnodup
  constructor
  · intro x hx hcontra
    exact hdisj (hcontra ▸ List.mem_map_of_mem (·.name) hx)
      (List.mem_cons_self _ _)
  · intro x hx hcontra
    exact (List.nodup_cons.mp hn₂).1 (hcontra.symm ▸ List.mem_map_of_mem (·.name) hx)

theorem setStatus_decomp (jobsDir : String) (l₁ l₂ : List DirEnt) (e : DirEnt)
    (job : Job) (status : JStatus) (msg : Option String)
    (hname : e.name = job.id)
    (hl₁ : ∀ x ∈ l₁, x.name ≠ job.id) (hl₂ : ∀ x ∈ l₂, x.name ≠ job.id) :
    setStatus jobsDir (l₁ ++ e :: l₂) job status msg
      = l₁ ++ { e with content := .valid (mkStatus jobsDir job status msg) } :: l₂ := by
  unfold setStatus
  rw [List.map_append, List.map_cons]
  have hcond : (e.name == job.id) = true := beq_iff_eq.mpr hname
  congr 1
  · refine (List.map_congr_left ?_).trans (List.map_id _)
    intro x hx
    simp [beq_eq_false_iff_ne.mpr (hl₁ x hx)]
  · congr 1
    · simp [hcond]
    · refine (List.map_congr_left ?_).trans (List.map_id _)
      intro x hx
      simp [beq_eq_false_iff_ne.mpr (hl₂ x hx)]

/-- Decomposition of the effect of a full non-gather step: the store
splits around the job's directory entry, and reaffirm-`pending` followed
by the terminal `setStatus` rewrites exactly that entry. -/
theorem processPlain_decomp (env : WorkerEnv) (st : Store) (js : JobStatus)
    (hwf : WellFormed st) (hmem : js ∈ pendingJobs st) :
    ∃ l₁ e l₂, st = l₁ ++ e :: l₂
      ∧ e.name = js.job.id ∧ e.isDirectory = true ∧ e.content = .valid js
      ∧ js.status = .pending
      ∧ processPlain env (setStatus env.jobsDir st js.job .pending none) js.job
        = l₁ ++ { e with content := .valid (mkStatus env.jobsDir js.job
            (plainStatus env js.job) (plainMsg env js.job)) } :: l₂ := by
  obtain ⟨e, he, hdir, hc, hp⟩ := (mem_pendingJobs_iff st js).mp hmem
  obtain ⟨l₁, l₂, hdecomp⟩ := List.append_of_mem he
  have hname : e.name = js.job.id :=
    (entryConsistent_valid (hwf.2 e he).2 hc).symm
  have hnodup : ((l₁ ++ e :: l₂).map (·.name)).Nodup := hdecomp ▸ hwf.1
  obtain ⟨hl₁, hl₂⟩ := names_unique_of_decomp l₁ l₂ e hnodup
  have hl₁' : ∀ x ∈ l₁, x.name ≠ js.job.id := fun x hx => hname ▸ hl₁ x hx
  have hl₂' : ∀ x ∈ l₂, x.name ≠ js.job.id := fun x hx => hname ▸ hl₂ x hx
  refine ⟨l₁, e, l₂, hdecomp, hname, hdir, hc, hp, ?_⟩
  rw [processPlain_eq, hdecomp,
    setStatus_decomp env.jobsDir l₁ l₂ e js.job .pending none hname hl₁' hl₂']
  exact setStatus_decomp env.jobsDir l₁ l₂
    { e with content := .valid (mkStatus env.jobsDir js.job .pending none) }
    js.job (plainStatus env js.job) (plainMsg env js.job) hname hl₁' hl₂'

theorem pendingCount_decomp (l₁ l₂ : List DirEnt) (e : DirEnt)
    (hdir : e.isDirectory = true) :
    pendingCount (l₁ ++ e :: l₂)
      = pendingCount l₁ + (if (pendingSel e).isSome then 1 else 0)
        + pendingCount l₂ := by
  unfold pendingCount
  rw [List.filter_append, List.filter_cons, if_pos hdir, List.filterMap_append,
    List.filterMap_cons]
  cases h : pendingSel e with
  | none => simp [List.length_append]
  | some s => simp [List.length_append]; omega

theorem pendingSel_of_pending {e : DirEnt} {js : JobStatus}
    (hc : e.content = .valid js) (hp : js.status = .pending) :
    pendingSel e = some js := by
  simp [pendingSel, readEntry, hc, hp]

theorem pendingSel_of_terminal {e : DirEnt} {s : JobStatus}
    (hc : e.content = .valid s) (hs : s.status ≠ .pending) :
    pendingSel e = none := by
  have hb : (s.status == JStatus.pending) = false := beq_eq_false_iff_ne.mpr hs
  simp only [pendingSel, readEntry, hc, Option.some_bind, hb, Bool.false_eq_true, if_false]

/-- Replacing one entry's status record by another for the same job
preserves the store invariant. -/
theorem wellFormed_replace (jobsDir : String) (l₁ l₂ : List DirEnt) (e : DirEnt)
    (job : Job) (status : JStatus) (msg : Option String)
    (hwf : WellFormed (l₁ ++ e :: l₂)) (hname : e.name = job.id) :
    WellFormed (l₁ ++ { e with content := .valid (mkStatus jobsDir job status msg) } :: l₂) := by
  obtain ⟨hnodup, hall⟩ := hwf
  constructor
  · have : (l₁ ++ { e with content := .valid (mkStatus jobsDir job status msg) } :: l₂).map (·.name)
        = (l₁ ++ e :: l₂).map (·.name) := by
      rw [List.map_append, List.map_cons, List.map_append, List.map_cons]
    rw [this]
    exact hnodup
  · intro x hx
    rcases List.mem_append.mp hx with hx₁ | hx₂
    · exact hall x (List.mem_append.mpr (Or.inl hx₁))
    · rcases List.mem_cons.mp hx₂ with rfl | hxl₂
      · refine ⟨(hall e (List.mem_append.mpr (Or.inr (List.mem_cons_self e l₂)))).1, ?_⟩
        unfold entryConsistent
        simp [mkStatus, hname]
      · exact hall x (List.mem_append.mpr (Or.inr (List.mem_cons_of_mem e hxl₂)))

/-- When fuel covers the number of pending jobs and no pending job is a
gather job, `run()` terminates only when the re-queried `pendingJobs()`
list is empty: no job persisted to the store survives the drain as
`pending`. -/
theorem runLoop_drains (env : WorkerEnv) :
    ∀ (fuel : Nat) (st : Store), WellFormed st →
    (∀ js ∈ pendingJobs st, js.job.isGather = false) →
    pendingCount st ≤ fuel →
    pendingJobs (runLoop env fuel st) = [] := by
  intro fuel
  induction fuel with
  | zero =>
    intro st _ _ hf
    have h0 : (pendingJobs st).length = 0 := by
      rw [pendingJobs_length]
      omega
    exact List.length_eq_zero.mp h0
  | succ fuel ih =>
    intro st hwf hng hf
    cases hpend : pendingJobs st with
    | nil =>
      show pendingJobs (match pendingJobs st with
        | [] => st
        | js :: _ =>
          let st1 := setStatus env.jobsDir st js.job .pending none
          if js.job.isGather then
            runLoop env fuel (runLoop env fuel (gatherBody env st1 js.job))
          else
            runLoop env fuel (processPlain env st1 js.job)) = []
      rw [hpend]
      exact hpend
    | cons js rest =>
      have hjs : js ∈ pendingJobs st := by
        rw [hpend]
        exact List.mem_cons_self _ _
      have hgather : js.job.isGather = false := hng js hjs
      obtain ⟨l₁, e, l₂, hdecomp, hname, hdir, hcontent, hpendjs, hresult⟩ :=
        processPlain_decomp env st js hwf hjs
      have hstep : runLoop env (fuel + 1) st
          = runLoop env fuel (processPlain env
              (setStatus env.jobsDir st js.job .pending none) js.job) := by
        show (match pendingJobs st with
          | [] => st
          | js :: _ =>
            let st1 := setStatus env.jobsDir st js.job .pending none
            if js.job.isGather then
              runLoop env fuel (runLoop env fuel (gatherBody env st1 js.job))
            else
              runLoop env fuel (processPlain env st1 js.job)) = _
        rw [hpend]
        show (if js.job.isGather then _ else _) = _
        rw [hgather]
        simp only [Bool.false_eq_true, if_false]
      rw [hstep, hresult]
      set efin : DirEnt := { e with content := .valid (mkStatus env.jobsDir js.job
        (plainStatus env js.job) (plainMsg env js.job)) } with hefin
      have hwf' : WellFormed (l₁ ++ efin :: l₂) :=
        wellFormed_replace env.jobsDir l₁ l₂ e js.job _ _ (hdecomp ▸ hwf) hname
      have hng' : ∀ js' ∈ pendingJobs (l₁ ++ efin :: l₂), js'.job.isGather = false := by
        intro js' hjs'
        obtain ⟨e', he', hdir', hc', hp'⟩ := (mem_pendingJobs_iff _ js').mp hjs'
        have hsplit : e' ∈ l₁ ∨ e' = efin ∨ e' ∈ l₂ := by
          rcases List.mem_append.mp he' with h | h
          · exact Or.inl h
          · rcases List.mem_cons.mp h with h | h
            · exact Or.inr (Or.inl h)
            · exact Or.inr (Or.inr h)
        rcases hsplit with h | h | h
        · refine hng js' ((mem_pendingJobs_iff st js').mpr ⟨e', ?_, hdir', hc', hp'⟩)
          rw [hdecomp]
          exact List.mem_append.mpr (Or.inl h)
        · exfalso
          subst h
          have hjs'eq : mkStatus env.jobsDir js.job (plainStatus env js.job)
              (plainMsg env js.job) = js' := by
            have hcv : EntryContent.valid (mkStatus env.jobsDir js.job
                (plainStatus env js.job) (plainMsg env js.job))
                = EntryContent.valid js' := hc'
            injection hcv
          have hst : js'.status = plainStatus env js.job := by
            rw [← hjs'eq]
            rfl
          exact plainStatus_ne_pending env js.job (hst.symm.trans hp')
        · refine hng js' ((mem_pendingJobs_iff st js').mpr ⟨e', ?_, hdir', hc', hp'⟩)
          rw [hdecomp]
          exact List.mem_append.mpr (Or.inr (List.mem_cons_of_mem e h))
      have hcount : pendingCount (l₁ ++ efin :: l₂) + 1 = pendingCount st := by
        rw [hdecomp, pendingCount_decomp l₁ l₂ e hdir, pendingCount_decomp l₁ l₂ efin hdir]
        rw [pendingSel_of_pending hcontent hpendjs,
          pendingSel_of_terminal (show efin.content = .valid (mkStatus env.jobsDir js.job
            (plainStatus env js.job) (plainMsg env js.job)) from rfl)
            (by simp [mkStatus]; exact plainStatus_ne_pending env js.job)]
        simp only [if_true, Option.isSome_some, Option.isSome_none, Bool.false_eq_true, if_false]
        omega
      have hle : pendingCount (l₁ ++ efin :: l₂) ≤ fuel := by
        have h1 : pendingCount st ≤ fuel + 1 := hf
        omega
      exact ih (l₁ ++ efin :: l₂) hwf' hng' hle

theorem lookupEntry_decomp_self (l₁ l₂ : List DirEnt) (e : DirEnt) (id : String)
    (hname : e.name = id) (hl₁ : ∀ x ∈ l₁, x.name ≠ id) :
    lookupEntry (l₁ ++ e :: l₂) id = some e := by
  unfold lookupEntry
  rw [List.find?_append]
  have h1 : l₁.find? (fun x => x.name == id) = none :=
    List.find?_eq_none.mpr (fun x hx => by
      simp [beq_eq_false_iff_ne.mpr (hl₁ x hx)])
  have h2 : (e :: l₂).find? (fun x => x.name == id) = some e :=
    List.find?_cons_of_pos _ (beq_iff_eq.mpr hname)
  rw [h1, h2]
  rfl

theorem lookupEntry_decomp_other (l₁ l₂ : List DirEnt) (e e' : DirEnt) (id : String)
    (hname : e'.name = e.name) (hne : e.name ≠ id) :
    lookupEntry (l₁ ++ e' :: l₂) id = lookupEntry (l₁ ++ e :: l₂) id := by
  unfold lookupEntry
  rw [List.find?_append, List.find?_append]
  have h2 : (e' :: l₂).find? (fun x => x.name == id) = l₂.find? (fun x => x.name == id) :=
    List.find?_cons_of_neg _ (by simp [hname, hne])
  have h3 : (e :: l₂).find? (fun x => x.name == id) = l₂.find? (fun x => x.name == id) :=
    List.find?_cons_of_neg _ (by simp [hne])
  rw [h2, h3]

/-- **C1.** When a job's execution raises an exception — from the user
callback or from repository synchronization — `run()` catches it at the
per-job boundary: the loop continues as a plain recursion over the
remaining fuel (the exception never escapes `run()`), the job's status
record becomes `failed` with the non-empty message `"" + error`, and
every other directory entry of the store is left untouched. -/
theorem C1_failure_isolated_and_loop_continues (env : WorkerEnv) (fuel : Nat)
    (st : Store) (js : JobStatus) (rest : List JobStatus) (err : JSError)
    (hwf : WellFormed st)
    (hpend : pendingJobs st = js :: rest)
    (hng : js.job.isGather = false)
    (herr : env.sync js.job = some err
      ∨ (env.sync js.job = none ∧ env.handler js.job = .throws err))
    (hstr : err.str ≠ "") :
    runLoop env (fuel + 1) st
      = runLoop env fuel (processPlain env
          (setStatus env.jobsDir st js.job .pending none) js.job)
    ∧ lookupEntry (processPlain env
          (setStatus env.jobsDir st js.job .pending none) js.job) js.job.id
        = some ⟨js.job.id, true,
            .valid (mkStatus env.jobsDir js.job .failed (some ("" ++ err.str)))⟩
    ∧ ("" ++ err.str) ≠ ""
    ∧ (∀ id, id ≠ js.job.id →
        lookupEntry (processPlain env
            (setStatus env.jobsDir st js.job .pending none) js.job) id
          = lookupEntry st id) := by
  have hjs : js ∈ pendingJobs st := by
    rw [hpend]
    exact List.mem_cons_self _ _
  obtain ⟨l₁, e, l₂, hdecomp, hname, hdir, hcontent, hpendjs, hresult⟩ :=
    processPlain_decomp env st js hwf hjs
  have hps : plainStatus env js.job = .failed := by
    rcases herr with h | ⟨h1, h2⟩
    · simp [plainStatus, h]
    · simp [plainStatus, h1, h2]
  have hpm : plainMsg env js.job = some ("" ++ err.str) := by
    rcases herr with h | ⟨h1, h2⟩
    · simp [plainMsg, h]
    · simp [plainMsg, h1, h2]
  rw [hps, hpm] at hresult
  have hnodup : ((l₁ ++ e :: l₂).map (·.name)).Nodup := hdecomp ▸ hwf.1
  obtain ⟨hl₁, hl₂⟩ := names_unique_of_decomp l₁ l₂ e hnodup
  have hl₁' : ∀ x ∈ l₁, x.name ≠ js.job.id := fun x hx => hname ▸ hl₁ x hx
  refine ⟨?_, ?_, ?_, ?_⟩
  · show (match pendingJobs st with
      | [] => st
      | js :: _ =>
        let st1 := setStatus env.jobsDir st js.job .pending none
        if js.job.isGather then
          runLoop env fuel (runLoop env fuel (gatherBody env st1 js.job))
        else
          runLoop env fuel (processPlain env st1 js.job)) = _
    rw [hpend]
    show (if js.job.isGather then _ else _) = _
    rw [hng]
    simp only [Bool.false_eq_true, if_false]
  · rw [hresult]
    have hlook := lookupEntry_decomp_self l₁ l₂
      { e with content := .valid (mkStatus env.jobsDir js.job .failed
          (some ("" ++ err.str))) }
      js.job.id hname hl₁'
    rw [hlook]
    have : ({ e with content := .valid (mkStatus env.jobsDir js.job .failed
        (some ("" ++ err.str))) } : DirEnt)
        = ⟨js.job.id, true, .valid (mkStatus env.jobsDir js.job .failed
            (some ("" ++ err.str)))⟩ := by
      cases e
      simp_all
    rw [this]
  · rw [empty_append_str]
    exact hstr
  · intro id hne
    rw [hresult, hdecomp]
    refine lookupEntry_decomp_other l₁ l₂ e _ id rfl ?_
    rw [hname]
    exact fun h => hne h.symm

/-- **C2.** `startTask()` invoked while `isRunning` is already true
returns without invoking `run()`; a trigger message received while a
drain is running is dropped; and no pending job is lost to that, because
`run()` re-queries `pendingJobs()` at the top of every iteration and
goes idle only when that query is empty — a drain started on the stored
jobs ends with no pending job left. -/
theorem C2_reentrancy_guard_no_loss (env : WorkerEnv) (fuel : Nat) (w : Worker)
    (hwf : WellFormed w.store)
    (hng : ∀ js ∈ pendingJobs w.store, js.job.isGather = false)
    (hfuel : (pendingJobs w.store).length ≤ fuel) :
    (w.running = true → startTask env fuel w = (w, false))
    ∧ (w.running = true → onTrigger env fuel w = (w, false))
    ∧ pendingJobs ((startTask env fuel ⟨w.store, false⟩).1.store) = [] := by
  refine ⟨?_, ?_, ?_⟩
  · intro hr
    unfold startTask
    rw [if_pos hr]
  · intro hr
    unfold onTrigger startTask
    rw [hr]
    simp
  · show pendingJobs (runLoop env fuel w.store) = []
    refine runLoop_drains env fuel w.store hwf hng ?_
    rw [← pendingJobs_length]
    exact hfuel

/-- Evaluation helper: the pending listing of a single-directory store. -/
theorem pendingJobs_singleton (e : DirEnt) (js : JobStatus)
    (hdir : e.isDirectory = true) (hc : e.content = .valid js)
    (hp : js.status = .pending) :
    pendingJobs [e] = [js] := by
  unfold pendingJobs
  rw [allJobs_none_eq]
  have h1 : ([e].filter (·.isDirectory)) = [e] := by simp [hdir]
  rw [h1, List.mergeSort_of_sorted (List.pairwise_singleton _ _)]
  simp [readEntry, hc, hp]

/-- Witness for `C1_failure_isolated_and_loop_continues`: a single
pending job whose callback throws is marked failed with message
`"" + "Error: boom"`. -/
theorem C1_failure_isolated_and_loop_continues_witness :
    lookupEntry
      (processPlain
        ⟨"jobs", "/w/repository", "T", "e@x", fun _ => none,
          fun _ => .throws ⟨"Error: boom", none⟩, []⟩
        (setStatus "jobs"
          [⟨"2024-01-01", true, .valid ⟨⟨"2024-01-01", ⟨"T", "e@x"⟩, none, none, none, none⟩,
            .pending, none, "jobs/2024-01-01"⟩⟩]
          ⟨"2024-01-01", ⟨"T", "e@x"⟩, none, none, none, none⟩ .pending none)
        ⟨"2024-01-01", ⟨"T", "e@x"⟩, none, none, none, none⟩)
      "2024-01-01"
      = some ⟨"2024-01-01", true,
          .valid (mkStatus "jobs" ⟨"2024-01-01", ⟨"T", "e@x"⟩, none, none, none, none⟩
            .failed (some ("" ++ "Error: boom")))⟩
    ∧ ("" ++ "Error: boom") ≠ "" := by
  have h := C1_failure_isolated_and_loop_continues
    ⟨"jobs", "/w/repository", "T", "e@x", fun _ => none,
      fun _ => .throws ⟨"Error: boom", none⟩, []⟩
    0
    [⟨"2024-01-01", true, .valid ⟨⟨"2024-01-01", ⟨"T", "e@x"⟩, none, none, none, none⟩,
      .pending, none, "jobs/2024-01-01"⟩⟩]
    ⟨⟨"2024-01-01", ⟨"T", "e@x"⟩, none, none, none, none⟩, .pending, none, "jobs/2024-01-01"⟩
    [] ⟨"Error: boom", none⟩
    (by decide)
    (pendingJobs_singleton
      ⟨"2024-01-01", true, .valid ⟨⟨"2024-01-01", ⟨"T", "e@x"⟩, none, none, none, none⟩,
        .pending, none, "jobs/2024-01-01"⟩⟩
      ⟨⟨"2024-01-01", ⟨"T", "e@x"⟩, none, none, none, none⟩, .pending, none,
        "jobs/2024-01-01"⟩ rfl rfl rfl)
    (by rfl) (Or.inr ⟨rfl, rfl⟩) (by decide)
  exact ⟨h.2.1, h.2.2.1⟩

/-- Witness for `C2_reentrancy_guard_no_loss`: with the flag set the
guard refuses to run; starting on the same store idle drains it. -/
theorem C2_reentrancy_guard_no_loss_witness :
    startTask
      ⟨"jobs", "/w/repository", "T", "e@x", fun _ => none, fun _ => .ok none, []⟩ 1
      ⟨[⟨"2024-01-01", true, .valid ⟨⟨"2024-01-01", ⟨"T", "e@x"⟩, none, none, none, none⟩,
          .pending, none, "jobs/2024-01-01"⟩⟩], true⟩
      = (⟨[⟨"2024-01-01", true, .valid ⟨⟨"2024-01-01", ⟨"T", "e@x"⟩, none, none, none, none⟩,
          .pending, none, "jobs/2024-01-01"⟩⟩], true⟩, false)
    ∧ pendingJobs ((startTask
        ⟨"jobs", "/w/repository", "T", "e@x", fun _ => none, fun _ => .ok none, []⟩ 1
        ⟨[⟨"2024-01-01", true, .valid ⟨⟨"2024-01-01", ⟨"T", "e@x"⟩, none, none, none, none⟩,
            .pending, none, "jobs/2024-01-01"⟩⟩], false⟩).1.store) = [] := by
  have h := C2_reentrancy_guard_no_loss
    ⟨"jobs", "/w/repository", "T", "e@x", fun _ => none, fun _ => .ok none, []⟩ 1
    ⟨[⟨"2024-01-01", true, .valid ⟨⟨"2024-01-01", ⟨"T", "e@x"⟩, none, none, none, none⟩,
        .pending, none, "jobs/2024-01-01"⟩⟩], true⟩
    (by decide)
    (by
      intro js hjs
      rw [show (⟨[⟨"2024-01-01", true,
          .valid ⟨⟨"2024-01-01", ⟨"T", "e@x"⟩, none, none, none, none⟩,
            .pending, none, "jobs/2024-01-01"⟩⟩], true⟩ : Worker).store
        = [⟨"2024-01-01", true, .valid ⟨⟨"2024-01-01", ⟨"T", "e@x"⟩, none, none, none, none⟩,
            .pending, none, "jobs/2024-01-01"⟩⟩] from rfl,
        pendingJobs_singleton _
          ⟨⟨"2024-01-01", ⟨"T", "e@x"⟩, none, none, none, none⟩, .pending, none,
            "jobs/2024-01-01"⟩ rfl rfl rfl] at hjs
      rw [List.mem_singleton] at hjs
      subst hjs
      rfl)
    (by
      rw [show (⟨[⟨"2024-01-01", true,
          .valid ⟨⟨"2024-01-01", ⟨"T", "e@x"⟩, none, none, none, none⟩,
            .pending, none, "jobs/2024-01-01"⟩⟩], true⟩ : Worker).store
        = [⟨"2024-01-01", true, .valid ⟨⟨"2024-01-01", ⟨"T", "e@x"⟩, none, none, none, none⟩,
            .pending, none, "jobs/2024-01-01"⟩⟩] from rfl,
        pendingJobs_singleton _
          ⟨⟨"2024-01-01", ⟨"T", "e@x"⟩, none, none, none, none⟩, .pending, none,
            "jobs/2024-01-01"⟩ rfl rfl rfl]
      decide)
  exact ⟨h.1 rfl, h.2.2⟩
